import Mathlib

/-!
Shallow embedding of `src/zuu/util_dict.py` (repository z-uu/zuu.py).

Python values are modelled by the inductive type `PyVal`: dicts and object
attribute tables are insertion-ordered association lists with string keys,
lists/sets/tuples are `List PyVal`, and `PyVal.none` is Python's `None`.
In-place mutation is rendered functionally: every mutating operation returns
the updated root together with an `Except` result, and the updated root is
returned even when the operation raises (so partial mutation is observable).
The aliasing of `[{}] * n` (n references to one shared dict) is modelled:
when a list is extended, the walk descends into the one shared empty dict
and its final state is written back to every newly added slot.
-/

set_option autoImplicit false

/-- Python exceptions raised by `util_dict.py`, as (class, message) pairs. -/
inductive PyErr where
  | keyError (msg : String)
  | indexError (msg : String)
  | valueError (msg : String)
  | attributeError (msg : String)
  | typeError (msg : String)
deriving DecidableEq, Repr

/-- Python values reachable by the traversal code: `None`, ints, strings,
booleans, dicts, lists, sets, tuples, and generic objects with named
attributes.  Dicts and attribute tables are insertion-ordered association
lists. -/
inductive PyVal where
  | none
  | int (n : Int)
  | str (s : String)
  | bool (b : Bool)
  | pydict (entries : List (String × PyVal))
  | pylist (xs : List PyVal)
  | pyset (xs : List PyVal)
  | pytuple (xs : List PyVal)
  | obj (attrs : List (String × PyVal))

/-- The Python test `curr is None`. -/
def PyVal.isNone : PyVal → Bool
  | PyVal.none => true
  | _ => false

/-- The Python test `isinstance(v, dict)`. -/
def PyVal.isDict : PyVal → Bool
  | PyVal.pydict _ => true
  | _ => false

/-- Dict lookup `d.get(key)` / `key in d` on an association list (first
matching binding, as in a duplicate-free Python dict). -/
def lookupStr : List (String × PyVal) → String → Option PyVal
  | [], _ => Option.none
  | (k, v) :: rest, key => if k = key then Option.some v else lookupStr rest key

/-- Dict assignment `d[key] = v`: update the first binding of `key` in place,
or append a new binding at the end (Python insertion order). -/
def dictSet : List (String × PyVal) → String → PyVal → List (String × PyVal)
  | [], key, v => [(key, v)]
  | (k, w) :: rest, key, v =>
    if k = key then (key, v) :: rest else (k, w) :: dictSet rest key v

/-- Dict deletion `del d[key]`: remove the first binding of `key`. -/
def dictRemove : List (String × PyVal) → String → List (String × PyVal)
  | [], _ => []
  | (k, w) :: rest, key => if k = key then rest else (k, w) :: dictRemove rest key

/-- Keys of an association list are pairwise distinct (the representation
invariant every real Python dict satisfies). -/
def nodupKeysB : List (String × PyVal) → Bool
  | [] => true
  | (k, _) :: rest => !(rest.any (fun p => p.1 == k)) && nodupKeysB rest

/-- The Python constructor `dict(items)`: fold item assignment over an
item list (first occurrence fixes the position, last occurrence wins). -/
def pyDictOfList (items : List (String × PyVal)) : List (String × PyVal) :=
  items.foldl (fun d kv => dictSet d kv.1 kv.2) []

/-- Resolve a (possibly negative) Python list index against a length:
`some j` gives the physical position, `none` means `IndexError`. -/
def resolveIdx (len : Nat) (i : Int) : Option Nat :=
  if 0 ≤ i then (if i < (len : Int) then Option.some i.toNat else Option.none)
  else (if -(len : Int) ≤ i then Option.some (len - (-i).toNat) else Option.none)

/-- Numeric value of a digit string. -/
def digitsNat (l : List Char) : Nat :=
  l.foldl (fun n c => n * 10 + (c.toNat - '0'.toNat)) 0

/-- A nonempty list of decimal digits. -/
def isDigits (l : List Char) : Bool :=
  !l.isEmpty && l.all Char.isDigit

/-- Python `int(s)` on the character list of `s`: an optional sign followed
by digits; anything else raises `ValueError` (rendered as `none`). -/
def pyIntData : List Char → Option Int
  | [] => Option.none
  | c :: rest =>
    if c = '-' then
      (if isDigits rest then Option.some (-(Int.ofNat (digitsNat rest))) else Option.none)
    else if c = '+' then
      (if isDigits rest then Option.some (Int.ofNat (digitsNat rest)) else Option.none)
    else if isDigits (c :: rest) then Option.some (Int.ofNat (digitsNat (c :: rest)))
    else Option.none

/-- Python `int(s)` used for sequence index segments. -/
def pyInt (s : String) : Option Int :=
  pyIntData s.data

/-- Python `s.split(".")` on a character list: maximal groups between dots
(empty groups included, `[[]]` for the empty string). -/
def splitDotAux : List Char → List (List Char)
  | [] => [[]]
  | c :: rest =>
    if c = '.' then [] :: splitDotAux rest
    else
      match splitDotAux rest with
      | [] => [[c]]
      | g :: gs => (c :: g) :: gs

/-- Python `key.split(".")`. -/
def splitDot (s : String) : List String :=
  (splitDotAux s.data).map (fun l => String.mk l)

/-- Join path segments with `"."` (the composite keys flatten produces). -/
def dotJoin : List String → String
  | [] => ""
  | [k] => k
  | k :: k2 :: rest => k ++ "." ++ dotJoin (k2 :: rest)

/-- Accumulated-prefix join: `f"{parent_key}.{k}"` when the parent key is
nonempty, plain joining otherwise. -/
def prefJoin (pk : String) (p : List String) : String :=
  if pk = "" then dotJoin p else pk ++ "." ++ dotJoin p

/-- The string has no occurrence of the separator `"."`. -/
def dotFree (s : String) : Bool :=
  s.data.all (fun c => !(c = '.'))

mutual

/-- Model of `flatten_nested_dict(data, parent_key, sep)` (util_dict.py
lines 6-30): flattens a nested dict into a single-level dict whose keys are
the separator-joined paths; the returned value is `dict(items)`. -/
def flatten_nested_dict (data : List (String × PyVal)) (parent_key : String) (sep : String) :
    List (String × PyVal) :=
  pyDictOfList (flattenItems data parent_key sep)

/-- The `items` list accumulated by `flatten_nested_dict`: one pair per
non-dict value, recursive descent (through `flatten_nested_dict(...).items()`)
into dict values. -/
def flattenItems : List (String × PyVal) → String → String → List (String × PyVal)
  | [], _, _ => []
  | (key, value) :: rest, parent_key, sep =>
    (match value with
     | PyVal.pydict sub =>
         flatten_nested_dict sub (if parent_key = "" then key else parent_key ++ sep ++ key) sep
     | v => [((if parent_key = "" then key else parent_key ++ sep ++ key), v)]) ++
    flattenItems rest parent_key sep

end

/-- The leaf paths of a nested dict: each maximal path whose value is not a
dict, paired with that value, in left-to-right depth-first order. -/
def leaves : List (String × PyVal) → List (List String × PyVal)
  | [] => []
  | (k, v) :: rest =>
    (match v with
     | PyVal.pydict sub => (leaves sub).map (fun pv => (k :: pv.1, pv.2))
     | w => [([k], w)]) ++ leaves rest

/-- Nested-dict representation invariant: keys are duplicate-free at every
nesting level (every real Python dict satisfies this). -/
def wfDict : List (String × PyVal) → Bool
  | [] => true
  | (k, v) :: rest =>
    !(rest.any (fun p => p.1 == k)) &&
    (match v with
     | PyVal.pydict sub => wfDict sub
     | _ => true) &&
    wfDict rest

/-- Keys at every nesting level are nonempty and contain no `"."`, and every
nested dict value is nonempty (the conditions under which flattening is
lossless). -/
def flatOkDict : List (String × PyVal) → Bool
  | [] => true
  | (k, v) :: rest =>
    !(k = "") && dotFree k &&
    (match v with
     | PyVal.pydict sub => !sub.isEmpty && flatOkDict sub
     | _ => true) &&
    flatOkDict rest

/-- Keys at every nesting level are nonempty and contain no `"."` — the
condition under which composite keys cannot collide.  Unlike `flatOkDict`,
empty nested dict values are allowed: they contribute no leaves and no flat
entries, so leaf counting is unaffected (only the round-trip law needs to
exclude them). -/
def flatKeysOkDict : List (String × PyVal) → Bool
  | [] => true
  | (k, v) :: rest =>
    !(k = "") && dotFree k &&
    (match v with
     | PyVal.pydict sub => flatKeysOkDict sub
     | _ => true) &&
    flatKeysOkDict rest

/-- One entry of the `parse_dotted_dict` loop body: walk `keys[:-1]` with
`temp = temp.setdefault(k, {})` and assign the value at `keys[-1]`.
Reaching a non-dict value mid-walk raises (`AttributeError` at the next
`setdefault`, `TypeError` at the final item assignment). -/
def parseInsert : List (String × PyVal) → List String → PyVal →
    Except PyErr (List (String × PyVal))
  | _, [], _ =>
    Except.error (PyErr.indexError "list index out of range")
  | result, [k], v => Except.ok (dictSet result k v)
  | result, k :: k2 :: rest, v =>
    (match (match lookupStr result k with
            | Option.some x => (result, x)
            | Option.none => (dictSet result k (PyVal.pydict []), PyVal.pydict [])) with
     | (result1, PyVal.pydict sub) =>
       (match parseInsert sub (k2 :: rest) v with
        | Except.ok sub1 => Except.ok (dictSet result1 k (PyVal.pydict sub1))
        | Except.error e => Except.error e)
     | (_, _) =>
       if rest.isEmpty then
         Except.error (PyErr.typeError "object does not support item assignment")
       else
         Except.error (PyErr.attributeError "object has no attribute setdefault"))

/-- The `for key, value in data.items()` loop of `parse_dotted_dict`. -/
def parseLoop : List (String × PyVal) → List (String × PyVal) →
    Except PyErr (List (String × PyVal))
  | result, [] => Except.ok result
  | result, (key, value) :: rest =>
    match parseInsert result (splitDot key) value with
    | Except.ok r1 => parseLoop r1 rest
    | Except.error e => Except.error e

/-- Model of `parse_dotted_dict(data)` (util_dict.py lines 33-55): splits
each key on `"."` and rebuilds the nested dict. -/
def parse_dotted_dict (data : List (String × PyVal)) :
    Except PyErr (List (String × PyVal)) :=
  parseLoop [] data

/-- Element of a list at a physical position (the position is always in
range where this is used; `PyVal.none` is a dummy default). -/
def listGetD : List PyVal → Nat → PyVal
  | [], _ => PyVal.none
  | x :: _, 0 => x
  | _ :: rest, j + 1 => listGetD rest j

/-- Model of `_traverse(obj, keys, create_missing)` (util_dict.py lines
61-99) fused with the operation the caller performs on the reached node:
`f` receives the node at the end of the walk and returns its replacement
together with the call's result.  The first component of the returned pair
is the whole (possibly mutated) root, returned even when an error is
raised, so partial mutation stays observable. -/
def traverseMod (cm : Bool) (f : PyVal → PyVal × Except PyErr PyVal) :
    PyVal → List String → PyVal × Except PyErr PyVal
  | curr, [] => f curr
  | curr, key :: rest =>
    match curr with
    | PyVal.pydict entries =>
      let entries1 := if cm && (lookupStr entries key).isNone
        then dictSet entries key (PyVal.pydict []) else entries
      match lookupStr entries1 key with
      | Option.none =>
        (PyVal.pydict entries1,
         Except.error (PyErr.keyError ("Key " ++ key ++ " not found in dictionary")))
      | Option.some v =>
        if v.isNone then
          (PyVal.pydict entries1,
           Except.error (PyErr.keyError ("Key " ++ key ++ " not found in dictionary")))
        else
          let r := traverseMod cm f v rest
          (PyVal.pydict (dictSet entries1 key r.1), r.2)
    | PyVal.pylist xs =>
      match pyInt key with
      | Option.none =>
        (PyVal.pylist xs, Except.error (PyErr.valueError ("invalid literal for int: " ++ key)))
      | Option.some i =>
        if cm && (xs.length : Int) ≤ i then
          -- `curr.extend([{}] * (key - len(curr) + 1))`: every appended slot is
          -- an alias of one shared empty dict, and `curr = curr[key]` descends
          -- into it, so the dict's final state appears at every new position.
          let r := traverseMod cm f (PyVal.pydict []) rest
          (PyVal.pylist (xs ++ List.replicate (i + 1 - (xs.length : Int)).toNat r.1), r.2)
        else
          match resolveIdx xs.length i with
          | Option.none =>
            (PyVal.pylist xs,
             Except.error (PyErr.keyError ("Index " ++ toString i ++ " out of range for list")))
          | Option.some j =>
            let r := traverseMod cm f (listGetD xs j) rest
            (PyVal.pylist (xs.set j r.1), r.2)
    | PyVal.pyset xs =>
      match pyInt key with
      | Option.none =>
        (PyVal.pyset xs, Except.error (PyErr.valueError ("invalid literal for int: " ++ key)))
      | Option.some i =>
        match resolveIdx xs.length i with
        | Option.none =>
          (PyVal.pyset xs,
           Except.error (PyErr.keyError ("Index " ++ key ++ " out of range for set/tuple")))
        | Option.some j =>
          let r := traverseMod cm f (listGetD xs j) rest
          (PyVal.pyset (xs.set j r.1), r.2)
    | PyVal.pytuple xs =>
      match pyInt key with
      | Option.none =>
        (PyVal.pytuple xs, Except.error (PyErr.valueError ("invalid literal for int: " ++ key)))
      | Option.some i =>
        match resolveIdx xs.length i with
        | Option.none =>
          (PyVal.pytuple xs,
           Except.error (PyErr.keyError ("Index " ++ key ++ " out of range for set/tuple")))
        | Option.some j =>
          let r := traverseMod cm f (listGetD xs j) rest
          (PyVal.pytuple (xs.set j r.1), r.2)
    | PyVal.obj attrs =>
      match lookupStr attrs key with
      | Option.none =>
        (PyVal.obj attrs, Except.error (PyErr.keyError ("Attribute " ++ key ++ " not found")))
      | Option.some v =>
        let r := traverseMod cm f v rest
        (PyVal.obj (dictSet attrs key r.1), r.2)
    | other => (other, Except.error (PyErr.keyError ("Attribute " ++ key ++ " not found")))

/-- Model of `get_deep(obj, *keys)` (lines 102-113): `_traverse` with no
creation; the walk never mutates, so only the result is returned. -/
def get_deep (obj : PyVal) (keys : List String) : Except PyErr PyVal :=
  (traverseMod false (fun v => (v, Except.ok v)) obj keys).2

/-- The write `set_deep` performs on the container reached by the walk
(lines 130-138): dict item assignment, list assignment with `None` padding
when the index is at or beyond the end, `setattr` otherwise. -/
def setFinal (final_key : String) (value : PyVal) (curr : PyVal) :
    PyVal × Except PyErr PyVal :=
  match curr with
  | PyVal.pydict entries =>
    (PyVal.pydict (dictSet entries final_key value), Except.ok PyVal.none)
  | PyVal.pylist xs =>
    match pyInt final_key with
    | Option.none =>
      (PyVal.pylist xs,
       Except.error (PyErr.valueError ("invalid literal for int: " ++ final_key)))
    | Option.some i =>
      let xs1 := if (xs.length : Int) ≤ i
        then xs ++ List.replicate (i + 1 - (xs.length : Int)).toNat PyVal.none else xs
      match resolveIdx xs1.length i with
      | Option.none =>
        (PyVal.pylist xs1, Except.error (PyErr.indexError "list assignment index out of range"))
      | Option.some j => (PyVal.pylist (xs1.set j value), Except.ok PyVal.none)
  | PyVal.obj attrs =>
    (PyVal.obj (dictSet attrs final_key value), Except.ok PyVal.none)
  | other =>
    (other, Except.error (PyErr.attributeError ("cannot set attribute " ++ final_key)))

/-- Model of `set_deep(obj, *keys, value)` (lines 116-138): walk all but the
last segment with `create_missing=True`, then write at the last segment. -/
def set_deep (obj : PyVal) (keys : List String) (value : PyVal) :
    PyVal × Except PyErr PyVal :=
  match keys with
  | [] => (obj, Except.error (PyErr.valueError "not enough values to unpack"))
  | _ :: _ => traverseMod true (setFinal (keys.getLastD "") value) obj keys.dropLast

/-- The removal `del_deep` performs on the container reached by the walk
(lines 152-159): dict deletion, list element removal by index, `delattr`
otherwise. -/
def delFinal (final_key : String) (curr : PyVal) : PyVal × Except PyErr PyVal :=
  match curr with
  | PyVal.pydict entries =>
    if (lookupStr entries final_key).isSome then
      (PyVal.pydict (dictRemove entries final_key), Except.ok PyVal.none)
    else
      (PyVal.pydict entries, Except.error (PyErr.keyError final_key))
  | PyVal.pylist xs =>
    match pyInt final_key with
    | Option.none =>
      (PyVal.pylist xs,
       Except.error (PyErr.valueError ("invalid literal for int: " ++ final_key)))
    | Option.some i =>
      match resolveIdx xs.length i with
      | Option.none =>
        (PyVal.pylist xs, Except.error (PyErr.indexError "list assignment index out of range"))
      | Option.some j => (PyVal.pylist (xs.eraseIdx j), Except.ok PyVal.none)
  | PyVal.obj attrs =>
    if (lookupStr attrs final_key).isSome then
      (PyVal.obj (dictRemove attrs final_key), Except.ok PyVal.none)
    else (PyVal.obj attrs, Except.error (PyErr.attributeError final_key))
  | other => (other, Except.error (PyErr.attributeError final_key))

/-- Model of `del_deep(obj, *keys)` (lines 141-159): walk all but the last
segment with no creation, then remove the last segment. -/
def del_deep (obj : PyVal) (keys : List String) : PyVal × Except PyErr PyVal :=
  match keys with
  | [] => (obj, Except.error (PyErr.valueError "not enough values to unpack"))
  | _ :: _ => traverseMod false (delFinal (keys.getLastD "")) obj keys.dropLast

/-- The conditional write `set_default_deep` performs on the container
reached by the walk (lines 181-197): sets are rejected outright; a dict key
is written only when absent; a list index at or beyond the end is padded
(with `fillpadding`) or raises `IndexError`, while an in-range index is
assigned unconditionally; otherwise the attribute is set only when
`hasattr` is false. -/
def sdFinal (final_key : String) (value : PyVal) (fillpadding : Bool) (curr : PyVal) :
    PyVal × Except PyErr PyVal :=
  match curr with
  | PyVal.pyset xs =>
    (PyVal.pyset xs, Except.error (PyErr.indexError "set does not support default value"))
  | PyVal.pydict entries =>
    if (lookupStr entries final_key).isSome then (PyVal.pydict entries, Except.ok PyVal.none)
    else (PyVal.pydict (dictSet entries final_key value), Except.ok PyVal.none)
  | PyVal.pylist xs =>
    match pyInt final_key with
    | Option.none =>
      (PyVal.pylist xs,
       Except.error (PyErr.valueError ("invalid literal for int: " ++ final_key)))
    | Option.some i =>
      if (xs.length : Int) ≤ i then
        (if fillpadding then
          (PyVal.pylist
            ((xs ++ List.replicate (i + 1 - (xs.length : Int)).toNat PyVal.none).set i.toNat value),
           Except.ok PyVal.none)
        else
          (PyVal.pylist xs,
           Except.error (PyErr.indexError ("Index " ++ toString i ++ " out of range for list"))))
      else
        match resolveIdx xs.length i with
        | Option.none =>
          (PyVal.pylist xs, Except.error (PyErr.indexError "list assignment index out of range"))
        | Option.some j => (PyVal.pylist (xs.set j value), Except.ok PyVal.none)
  | PyVal.obj attrs =>
    if (lookupStr attrs final_key).isSome then (PyVal.obj attrs, Except.ok PyVal.none)
    else (PyVal.obj (dictSet attrs final_key value), Except.ok PyVal.none)
  | other =>
    (other, Except.error (PyErr.attributeError ("cannot set attribute " ++ final_key)))

/-- Model of `set_default_deep(obj, *keys, value, fillpadding)` (lines
162-197): walk all but the last segment with `create_missing=True`, then
apply the conditional write at the last segment. -/
def set_default_deep (obj : PyVal) (keys : List String) (value : PyVal) (fillpadding : Bool) :
    PyVal × Except PyErr PyVal :=
  match keys with
  | [] => (obj, Except.error (PyErr.valueError "not enough values to unpack"))
  | _ :: _ => traverseMod true (sdFinal (keys.getLastD "") value fillpadding) obj keys.dropLast

/-- The call raised the spec's `KeyNotFound` error (Python `KeyError`). -/
def isKeyNotFound : Except PyErr PyVal → Bool
  | Except.error (PyErr.keyError _) => true
  | _ => false

/-- The pure read walk: `_traverse(obj, keys)` with no creation and no
final operation.  Its second component is `get_deep`'s result; its first
component is always the unchanged root. -/
def traverseRO (obj : PyVal) (keys : List String) : PyVal × Except PyErr PyVal :=
  traverseMod false (fun v => (v, Except.ok v)) obj keys

/-- Spec-side absence predicate for the read walk: some path segment is
"absent" at the container reached at that step.  For a mapping this means
the key is missing or maps to a stored `None` (the code's `curr.get(key)`
plus `is None` test conflates the two); for a list/set/tuple, the parsed
index is out of range; for a plain object, the attribute is missing; a
non-container scalar makes the segment absent (attribute lookup on it
fails).  A segment that does not parse as an integer at a sequence is NOT
absence: the code lets `int(key)` raise `ValueError` there, outside the
KeyNotFound taxonomy. -/
def segmentAbsent : PyVal → List String → Bool
  | _, [] => false
  | curr, key :: rest =>
    match curr with
    | PyVal.pydict entries =>
      match lookupStr entries key with
      | Option.none => true
      | Option.some v => if v.isNone then true else segmentAbsent v rest
    | PyVal.pylist xs =>
      match pyInt key with
      | Option.none => false
      | Option.some i =>
        match resolveIdx xs.length i with
        | Option.none => true
        | Option.some j => segmentAbsent (listGetD xs j) rest
    | PyVal.pyset xs =>
      match pyInt key with
      | Option.none => false
      | Option.some i =>
        match resolveIdx xs.length i with
        | Option.none => true
        | Option.some j => segmentAbsent (listGetD xs j) rest
    | PyVal.pytuple xs =>
      match pyInt key with
      | Option.none => false
      | Option.some i =>
        match resolveIdx xs.length i with
        | Option.none => true
        | Option.some j => segmentAbsent (listGetD xs j) rest
    | PyVal.obj attrs =>
      match lookupStr attrs key with
      | Option.none => true
      | Option.some v => segmentAbsent v rest
    | _ => true

theorem lookupStr_dictSet_self (l : List (String × PyVal)) (k : String) (v : PyVal) :
    lookupStr (dictSet l k v) k = Option.some v := by
  induction l with
  | nil => simp [dictSet, lookupStr]
  | cons p rest ih =>
    obtain ⟨k1, w⟩ := p
    by_cases h : k1 = k
    · simp [dictSet, h, lookupStr]
    · simp [dictSet, h, lookupStr, ih]

theorem lookupStr_dictSet_ne (l : List (String × PyVal)) (k k' : String) (v : PyVal)
    (h : k' ≠ k) : lookupStr (dictSet l k v) k' = lookupStr l k' := by
  have hk : k ≠ k' := Ne.symm h
  induction l with
  | nil => simp [dictSet, lookupStr, hk]
  | cons p rest ih =>
    obtain ⟨k1, w⟩ := p
    by_cases h1 : k1 = k
    · subst h1
      simp [dictSet, lookupStr, hk]
    · simp [dictSet, h1, lookupStr, ih]

theorem dictSet_lookup_self (l : List (String × PyVal)) (k : String) (v : PyVal)
    (h : lookupStr l k = Option.some v) : dictSet l k v = l := by
  induction l with
  | nil => simp [lookupStr] at h
  | cons p rest ih =>
    obtain ⟨k1, w⟩ := p
    by_cases h1 : k1 = k
    · subst h1
      simp [lookupStr] at h
      simp [dictSet, h]
    · simp [lookupStr, h1] at h
      simp [dictSet, h1, ih h]

theorem dictSet_absent (l : List (String × PyVal)) (k : String) (v : PyVal)
    (h : lookupStr l k = Option.none) : dictSet l k v = l ++ [(k, v)] := by
  induction l with
  | nil => simp [dictSet]
  | cons p rest ih =>
    obtain ⟨k1, w⟩ := p
    by_cases h1 : k1 = k
    · simp [lookupStr, h1] at h
    · simp [lookupStr, h1] at h
      simp [dictSet, h1, ih h]

theorem dictSet_dictSet (l : List (String × PyVal)) (k : String) (a b : PyVal) :
    dictSet (dictSet l k a) k b = dictSet l k b := by
  induction l with
  | nil => simp [dictSet]
  | cons p rest ih =>
    obtain ⟨k1, w⟩ := p
    by_cases h1 : k1 = k
    · simp [dictSet, h1]
    · simp [dictSet, h1, ih]

theorem lookupStr_eq_none_iff (l : List (String × PyVal)) (k : String) :
    lookupStr l k = Option.none ↔ ∀ p ∈ l, p.1 ≠ k := by
  induction l with
  | nil => simp [lookupStr]
  | cons p rest ih =>
    obtain ⟨k1, w⟩ := p
    by_cases h1 : k1 = k
    · simp [lookupStr, h1]
    · simp [lookupStr, h1, ih]

theorem lookupStr_dictRemove_self (l : List (String × PyVal)) (k : String)
    (h : nodupKeysB l = true) : lookupStr (dictRemove l k) k = Option.none := by
  induction l with
  | nil => simp [dictRemove, lookupStr]
  | cons p rest ih =>
    obtain ⟨k1, w⟩ := p
    simp only [nodupKeysB, Bool.and_eq_true, Bool.not_eq_true'] at h
    obtain ⟨hany, hrest⟩ := h
    by_cases h1 : k1 = k
    · subst h1
      rw [dictRemove]
      simp only [if_pos rfl]
      rw [lookupStr_eq_none_iff]
      intro p hp hpk
      have : (p.1 == k1) = true := by simp [hpk]
      have h2 : rest.any (fun p => p.1 == k1) = true := List.any_eq_true.mpr ⟨p, hp, this⟩
      rw [hany] at h2
      exact Bool.false_ne_true h2
    · rw [dictRemove]
      simp only [if_neg h1]
      simp [lookupStr, h1, ih hrest]

theorem getD_set_self (xs : List PyVal) (j : Nat) (v : PyVal) (h : j < xs.length) :
    listGetD (xs.set j v) j = v := by
  induction xs generalizing j with
  | nil => simp at h
  | cons x rest ih =>
    cases j with
    | zero => simp [List.set, listGetD]
    | succ n =>
      simp only [List.set, listGetD]
      exact ih n (by simpa using h)

theorem getD_append_left (xs ys : List PyVal) (j : Nat) (h : j < xs.length) :
    listGetD (xs ++ ys) j = listGetD xs j := by
  induction xs generalizing j with
  | nil => simp at h
  | cons x rest ih =>
    cases j with
    | zero => simp [listGetD]
    | succ n =>
      simp only [List.cons_append, listGetD]
      exact ih n (by simpa using h)

theorem getD_append_right (xs ys : List PyVal) (j : Nat)
    (h : xs.length ≤ j) : listGetD (xs ++ ys) j = listGetD ys (j - xs.length) := by
  induction xs generalizing j with
  | nil => simp
  | cons x rest ih =>
    cases j with
    | zero => simp at h
    | succ n =>
      simp only [List.cons_append, List.append_eq, listGetD, List.length_cons]
      rw [ih n (by simpa using h)]
      congr 1
      omega

theorem getD_replicate (n j : Nat) (c : PyVal) (h : j < n) :
    listGetD (List.replicate n c) j = c := by
  induction n generalizing j with
  | zero => simp at h
  | succ m ih =>
    cases j with
    | zero => simp [List.replicate, listGetD]
    | succ t =>
      simp only [List.replicate, listGetD]
      exact ih t (by omega)

theorem resolveIdx_lt (len : Nat) (i : Int) (j : Nat) (h : resolveIdx len i = Option.some j) :
    j < len := by
  unfold resolveIdx at h
  by_cases h0 : 0 ≤ i
  · simp only [if_pos h0] at h
    by_cases h1 : i < (len : Int)
    · simp only [if_pos h1, Option.some.injEq] at h
      omega
    · simp [h1] at h
  · simp only [if_neg h0] at h
    by_cases h1 : -(len : Int) ≤ i
    · simp only [if_pos h1, Option.some.injEq] at h
      omega
    · simp [h1] at h

theorem resolveIdx_of_ge (len : Nat) (i : Int) (h : (len : Int) ≤ i) :
    resolveIdx len i = Option.none := by
  unfold resolveIdx
  have h0 : 0 ≤ i := le_trans (by omega) h
  simp only [if_pos h0]
  have : ¬(i < (len : Int)) := by omega
  simp [this]

theorem resolveIdx_nonneg (len : Nat) (i : Int) (h0 : 0 ≤ i) (h1 : i < (len : Int)) :
    resolveIdx len i = Option.some i.toNat := by
  unfold resolveIdx
  simp [h0, h1]

theorem traverseMod_result_of_ro (keys : List String) :
    ∀ (obj v : PyVal) (cm : Bool) (f : PyVal → PyVal × Except PyErr PyVal),
      (traverseRO obj keys).2 = Except.ok v →
      (traverseMod cm f obj keys).2 = (f v).2 := by
  induction keys with
  | nil =>
    intro obj v cm f h
    simp only [traverseRO, traverseMod] at h
    cases h
    rfl
  | cons key rest ih =>
    intro obj v cm f h
    cases obj with
    | pydict entries =>
      cases hl : lookupStr entries key with
      | none => simp [traverseRO, traverseMod, hl] at h
      | some w =>
        cases hw : w.isNone with
        | true => simp [traverseRO, traverseMod, hl, hw] at h
        | false =>
          simp only [traverseRO, traverseMod, Bool.false_and, Bool.and_false,
            Option.isNone_some, hl, hw, if_neg, Bool.false_eq_true, ite_false] at h
          simp only [traverseMod, hl, Option.isNone_some, Bool.and_false, hw,
            Bool.false_eq_true, ite_false]
          exact ih w v cm f h
    | pylist xs =>
      cases hi : pyInt key with
      | none => simp [traverseRO, traverseMod, hi] at h
      | some i =>
        cases hr : resolveIdx xs.length i with
        | none => simp [traverseRO, traverseMod, hi, hr] at h
        | some j =>
          have hnge : ¬((xs.length : Int) ≤ i) := by
            intro hge
            rw [resolveIdx_of_ge xs.length i hge] at hr
            exact Option.noConfusion hr
          have hc : (cm && decide ((xs.length : Int) ≤ i)) = false := by
            simp [hnge]
          simp [traverseRO, traverseMod, hi, hr] at h
          simp [traverseMod, hi, hc, hr]
          exact ih (listGetD xs j) v cm f h
    | pyset xs =>
      cases hi : pyInt key with
      | none => simp [traverseRO, traverseMod, hi] at h
      | some i =>
        cases hr : resolveIdx xs.length i with
        | none => simp [traverseRO, traverseMod, hi, hr] at h
        | some j =>
          simp only [traverseRO, traverseMod, hi, hr] at h
          simp only [traverseMod, hi, hr]
          exact ih (listGetD xs j) v cm f h
    | pytuple xs =>
      cases hi : pyInt key with
      | none => simp [traverseRO, traverseMod, hi] at h
      | some i =>
        cases hr : resolveIdx xs.length i with
        | none => simp [traverseRO, traverseMod, hi, hr] at h
        | some j =>
          simp only [traverseRO, traverseMod, hi, hr] at h
          simp only [traverseMod, hi, hr]
          exact ih (listGetD xs j) v cm f h
    | obj attrs =>
      cases hl : lookupStr attrs key with
      | none => simp [traverseRO, traverseMod, hl] at h
      | some w =>
        simp only [traverseRO, traverseMod, hl] at h
        simp only [traverseMod, hl]
        exact ih w v cm f h
    | none => simp [traverseRO, traverseMod] at h
    | int n => simp [traverseRO, traverseMod] at h
    | str s => simp [traverseRO, traverseMod] at h
    | bool b => simp [traverseRO, traverseMod] at h


theorem isNone_false_of_ne (v : PyVal) (h : v ≠ PyVal.none) : v.isNone = false := by
  cases v with
  | none => exact absurd rfl h
  | int n => rfl
  | str s => rfl
  | bool b => rfl
  | pydict l => rfl
  | pylist l => rfl
  | pyset l => rfl
  | pytuple l => rfl
  | obj l => rfl

theorem ne_none_of_isNone_false (v : PyVal) (h : v.isNone = false) : v ≠ PyVal.none := by
  intro he
  subst he
  simp [PyVal.isNone] at h

theorem tm_step_dict_found (cm : Bool) (f : PyVal → PyVal × Except PyErr PyVal)
    (entries : List (String × PyVal)) (key : String) (w : PyVal) (rest : List String)
    (hl : lookupStr entries key = Option.some w) (hw : w.isNone = false) :
    traverseMod cm f (PyVal.pydict entries) (key :: rest) =
      (PyVal.pydict (dictSet entries key (traverseMod cm f w rest).1),
       (traverseMod cm f w rest).2) := by
  simp [traverseMod, hl, hw]

theorem tm_step_dict_create (f : PyVal → PyVal × Except PyErr PyVal)
    (entries : List (String × PyVal)) (key : String) (rest : List String)
    (hl : lookupStr entries key = Option.none) :
    traverseMod true f (PyVal.pydict entries) (key :: rest) =
      (PyVal.pydict (dictSet (dictSet entries key (PyVal.pydict [])) key
          (traverseMod true f (PyVal.pydict []) rest).1),
       (traverseMod true f (PyVal.pydict []) rest).2) := by
  simp [traverseMod, hl, lookupStr_dictSet_self, PyVal.isNone]

theorem tm_step_dict_missing (f : PyVal → PyVal × Except PyErr PyVal)
    (entries : List (String × PyVal)) (key : String) (rest : List String)
    (hl : lookupStr entries key = Option.none) :
    traverseMod false f (PyVal.pydict entries) (key :: rest) =
      (PyVal.pydict entries,
       Except.error (PyErr.keyError ("Key " ++ key ++ " not found in dictionary"))) := by
  simp [traverseMod, hl]

theorem tm_step_dict_nonefound (cm : Bool) (f : PyVal → PyVal × Except PyErr PyVal)
    (entries : List (String × PyVal)) (key : String) (w : PyVal) (rest : List String)
    (hl : lookupStr entries key = Option.some w) (hw : w.isNone = true) :
    traverseMod cm f (PyVal.pydict entries) (key :: rest) =
      (PyVal.pydict entries,
       Except.error (PyErr.keyError ("Key " ++ key ++ " not found in dictionary"))) := by
  simp [traverseMod, hl, hw]

theorem tm_step_list_badint (cm : Bool) (f : PyVal → PyVal × Except PyErr PyVal)
    (xs : List PyVal) (key : String) (rest : List String)
    (hi : pyInt key = Option.none) :
    traverseMod cm f (PyVal.pylist xs) (key :: rest) =
      (PyVal.pylist xs,
       Except.error (PyErr.valueError ("invalid literal for int: " ++ key))) := by
  simp [traverseMod, hi]

theorem tm_step_list_inrange (cm : Bool) (f : PyVal → PyVal × Except PyErr PyVal)
    (xs : List PyVal) (key : String) (i : Int) (j : Nat) (rest : List String)
    (hi : pyInt key = Option.some i)
    (hr : resolveIdx xs.length i = Option.some j) :
    traverseMod cm f (PyVal.pylist xs) (key :: rest) =
      (PyVal.pylist (xs.set j (traverseMod cm f (listGetD xs j) rest).1),
       (traverseMod cm f (listGetD xs j) rest).2) := by
  have hnge : ¬((xs.length : Int) ≤ i) := by
    intro hge
    rw [resolveIdx_of_ge xs.length i hge] at hr
    exact Option.noConfusion hr
  simp [traverseMod, hi, hnge, hr]

theorem tm_step_list_extend (f : PyVal → PyVal × Except PyErr PyVal)
    (xs : List PyVal) (key : String) (i : Int) (rest : List String)
    (hi : pyInt key = Option.some i) (hge : (xs.length : Int) ≤ i) :
    traverseMod true f (PyVal.pylist xs) (key :: rest) =
      (PyVal.pylist (xs ++ List.replicate (i.toNat + 1 - xs.length)
          (traverseMod true f (PyVal.pydict []) rest).1),
       (traverseMod true f (PyVal.pydict []) rest).2) := by
  have h0 : 0 ≤ i := le_trans (Int.ofNat_nonneg xs.length) hge
  have hcnt : (i + 1 - (xs.length : Int)).toNat = i.toNat + 1 - xs.length := by omega
  simp [traverseMod, hi, hge, hcnt]

theorem tm_step_list_oob (cm : Bool) (f : PyVal → PyVal × Except PyErr PyVal)
    (xs : List PyVal) (key : String) (i : Int) (rest : List String)
    (hi : pyInt key = Option.some i)
    (hc : (cm && decide ((xs.length : Int) ≤ i)) = false)
    (hr : resolveIdx xs.length i = Option.none) :
    traverseMod cm f (PyVal.pylist xs) (key :: rest) =
      (PyVal.pylist xs,
       Except.error (PyErr.keyError ("Index " ++ toString i ++ " out of range for list"))) := by
  simp [traverseMod, hi, hc, hr]

theorem tm_step_pyset_badint (cm : Bool) (f : PyVal → PyVal × Except PyErr PyVal)
    (xs : List PyVal) (key : String) (rest : List String)
    (hi : pyInt key = Option.none) :
    traverseMod cm f (PyVal.pyset xs) (key :: rest) =
      (PyVal.pyset xs,
       Except.error (PyErr.valueError ("invalid literal for int: " ++ key))) := by
  simp [traverseMod, hi]

theorem tm_step_pyset_inrange (cm : Bool) (f : PyVal → PyVal × Except PyErr PyVal)
    (xs : List PyVal) (key : String) (i : Int) (j : Nat) (rest : List String)
    (hi : pyInt key = Option.some i)
    (hr : resolveIdx xs.length i = Option.some j) :
    traverseMod cm f (PyVal.pyset xs) (key :: rest) =
      (PyVal.pyset (xs.set j (traverseMod cm f (listGetD xs j) rest).1),
       (traverseMod cm f (listGetD xs j) rest).2) := by
  simp [traverseMod, hi, hr]

theorem tm_step_pyset_oob (cm : Bool) (f : PyVal → PyVal × Except PyErr PyVal)
    (xs : List PyVal) (key : String) (i : Int) (rest : List String)
    (hi : pyInt key = Option.some i)
    (hr : resolveIdx xs.length i = Option.none) :
    traverseMod cm f (PyVal.pyset xs) (key :: rest) =
      (PyVal.pyset xs,
       Except.error (PyErr.keyError ("Index " ++ key ++ " out of range for set/tuple"))) := by
  simp [traverseMod, hi, hr]

theorem tm_step_pytuple_badint (cm : Bool) (f : PyVal → PyVal × Except PyErr PyVal)
    (xs : List PyVal) (key : String) (rest : List String)
    (hi : pyInt key = Option.none) :
    traverseMod cm f (PyVal.pytuple xs) (key :: rest) =
      (PyVal.pytuple xs,
       Except.error (PyErr.valueError ("invalid literal for int: " ++ key))) := by
  simp [traverseMod, hi]

theorem tm_step_pytuple_inrange (cm : Bool) (f : PyVal → PyVal × Except PyErr PyVal)
    (xs : List PyVal) (key : String) (i : Int) (j : Nat) (rest : List String)
    (hi : pyInt key = Option.some i)
    (hr : resolveIdx xs.length i = Option.some j) :
    traverseMod cm f (PyVal.pytuple xs) (key :: rest) =
      (PyVal.pytuple (xs.set j (traverseMod cm f (listGetD xs j) rest).1),
       (traverseMod cm f (listGetD xs j) rest).2) := by
  simp [traverseMod, hi, hr]

theorem tm_step_pytuple_oob (cm : Bool) (f : PyVal → PyVal × Except PyErr PyVal)
    (xs : List PyVal) (key : String) (i : Int) (rest : List String)
    (hi : pyInt key = Option.some i)
    (hr : resolveIdx xs.length i = Option.none) :
    traverseMod cm f (PyVal.pytuple xs) (key :: rest) =
      (PyVal.pytuple xs,
       Except.error (PyErr.keyError ("Index " ++ key ++ " out of range for set/tuple"))) := by
  simp [traverseMod, hi, hr]

theorem tm_step_obj_found (cm : Bool) (f : PyVal → PyVal × Except PyErr PyVal)
    (attrs : List (String × PyVal)) (key : String) (w : PyVal) (rest : List String)
    (hl : lookupStr attrs key = Option.some w) :
    traverseMod cm f (PyVal.obj attrs) (key :: rest) =
      (PyVal.obj (dictSet attrs key (traverseMod cm f w rest).1),
       (traverseMod cm f w rest).2) := by
  simp [traverseMod, hl]

theorem tm_step_obj_missing (cm : Bool) (f : PyVal → PyVal × Except PyErr PyVal)
    (attrs : List (String × PyVal)) (key : String) (rest : List String)
    (hl : lookupStr attrs key = Option.none) :
    traverseMod cm f (PyVal.obj attrs) (key :: rest) =
      (PyVal.obj attrs,
       Except.error (PyErr.keyError ("Attribute " ++ key ++ " not found"))) := by
  simp [traverseMod, hl]

theorem ro_step_dict_found (entries : List (String × PyVal)) (key : String) (w : PyVal)
    (rest : List String) (hl : lookupStr entries key = Option.some w)
    (hw : w.isNone = false) :
    (traverseRO (PyVal.pydict entries) (key :: rest)).2 = (traverseRO w rest).2 := by
  unfold traverseRO
  rw [tm_step_dict_found false _ entries key w rest hl hw]

theorem ro_step_list_inrange (xs : List PyVal) (key : String) (i : Int) (j : Nat)
    (rest : List String) (hi : pyInt key = Option.some i)
    (hr : resolveIdx xs.length i = Option.some j) :
    (traverseRO (PyVal.pylist xs) (key :: rest)).2 = (traverseRO (listGetD xs j) rest).2 := by
  unfold traverseRO
  rw [tm_step_list_inrange false _ xs key i j rest hi hr]

theorem ro_step_pyset_inrange (xs : List PyVal) (key : String) (i : Int) (j : Nat)
    (rest : List String) (hi : pyInt key = Option.some i)
    (hr : resolveIdx xs.length i = Option.some j) :
    (traverseRO (PyVal.pyset xs) (key :: rest)).2 = (traverseRO (listGetD xs j) rest).2 := by
  unfold traverseRO
  rw [tm_step_pyset_inrange false _ xs key i j rest hi hr]

theorem ro_step_pytuple_inrange (xs : List PyVal) (key : String) (i : Int) (j : Nat)
    (rest : List String) (hi : pyInt key = Option.some i)
    (hr : resolveIdx xs.length i = Option.some j) :
    (traverseRO (PyVal.pytuple xs) (key :: rest)).2 = (traverseRO (listGetD xs j) rest).2 := by
  unfold traverseRO
  rw [tm_step_pytuple_inrange false _ xs key i j rest hi hr]

theorem ro_step_obj_found (attrs : List (String × PyVal)) (key : String) (w : PyVal)
    (rest : List String) (hl : lookupStr attrs key = Option.some w) :
    (traverseRO (PyVal.obj attrs) (key :: rest)).2 = (traverseRO w rest).2 := by
  unfold traverseRO
  rw [tm_step_obj_found false _ attrs key w rest hl]

theorem ro_step_dict_missing (entries : List (String × PyVal)) (key : String)
    (rest : List String) (hl : lookupStr entries key = Option.none) :
    (traverseRO (PyVal.pydict entries) (key :: rest)).2 =
      Except.error (PyErr.keyError ("Key " ++ key ++ " not found in dictionary")) := by
  unfold traverseRO
  rw [tm_step_dict_missing _ entries key rest hl]

theorem ro_step_obj_missing (attrs : List (String × PyVal)) (key : String)
    (rest : List String) (hl : lookupStr attrs key = Option.none) :
    (traverseRO (PyVal.obj attrs) (key :: rest)).2 =
      Except.error (PyErr.keyError ("Attribute " ++ key ++ " not found")) := by
  unfold traverseRO
  rw [tm_step_obj_missing false _ attrs key rest hl]

theorem set_get_aux (fk : String) (v : PyVal) (hv : v ≠ PyVal.none) :
    ∀ (initial : List String) (obj obj' r : PyVal),
      traverseMod true (setFinal fk v) obj initial = (obj', Except.ok r) →
      obj' ≠ PyVal.none ∧ (traverseRO obj' (initial ++ [fk])).2 = Except.ok v := by
  intro initial
  induction initial with
  | nil =>
    intro obj obj' r h
    simp only [traverseMod] at h
    cases obj with
    | pydict entries =>
      simp only [setFinal, Prod.mk.injEq] at h
      obtain ⟨h1, h2⟩ := h
      subst h1
      refine ⟨fun hc => PyVal.noConfusion hc, ?_⟩
      rw [List.nil_append,
        ro_step_dict_found _ fk v [] (lookupStr_dictSet_self entries fk v)
          (isNone_false_of_ne v hv)]
      rfl
    | pylist xs =>
      cases hi : pyInt fk with
      | none => simp [setFinal, hi] at h
      | some i =>
        simp only [setFinal, hi] at h
        by_cases hle : (xs.length : Int) ≤ i
        · rw [if_pos hle] at h
          have h0 : 0 ≤ i := le_trans (Int.ofNat_nonneg xs.length) hle
          have hlen : (xs ++ List.replicate (i + 1 - (xs.length : Int)).toNat PyVal.none).length
              = i.toNat + 1 := by
            simp [List.length_append, List.length_replicate]
            omega
          have hres : resolveIdx
              (xs ++ List.replicate (i + 1 - (xs.length : Int)).toNat PyVal.none).length i
              = Option.some i.toNat := by
            rw [hlen]
            exact resolveIdx_nonneg _ i h0 (by omega)
          rw [hres] at h
          simp only [Prod.mk.injEq] at h
          obtain ⟨h1, h2⟩ := h
          subst h1
          refine ⟨fun hc => PyVal.noConfusion hc, ?_⟩
          rw [List.nil_append,
            ro_step_list_inrange _ fk i i.toNat [] hi
              (by rw [List.length_set, hlen]; exact resolveIdx_nonneg _ i h0 (by omega)),
            getD_set_self _ _ _ (by rw [hlen]; omega)]
          rfl
        · rw [if_neg hle] at h
          cases hr : resolveIdx xs.length i with
          | none => rw [hr] at h; simp at h
          | some j =>
            rw [hr] at h
            simp only [Prod.mk.injEq] at h
            obtain ⟨h1, h2⟩ := h
            subst h1
            refine ⟨fun hc => PyVal.noConfusion hc, ?_⟩
            rw [List.nil_append,
              ro_step_list_inrange _ fk i j [] hi (by rw [List.length_set]; exact hr),
              getD_set_self _ _ _ (resolveIdx_lt _ i j hr)]
            rfl
    | obj attrs =>
      simp only [setFinal, Prod.mk.injEq] at h
      obtain ⟨h1, h2⟩ := h
      subst h1
      refine ⟨fun hc => PyVal.noConfusion hc, ?_⟩
      rw [List.nil_append,
        ro_step_obj_found _ fk v [] (lookupStr_dictSet_self attrs fk v)]
      rfl
    | none => simp [setFinal] at h
    | int n => simp [setFinal] at h
    | str s => simp [setFinal] at h
    | bool b => simp [setFinal] at h
    | pyset xs => simp [setFinal] at h
    | pytuple xs => simp [setFinal] at h
  | cons key initial' ih =>
    intro obj obj' r h
    cases obj with
    | pydict entries =>
      cases hl : lookupStr entries key with
      | none =>
        rw [tm_step_dict_create _ entries key initial' hl, Prod.mk.injEq] at h
        obtain ⟨h1, h2⟩ := h
        obtain ⟨hne, hro⟩ := ih (PyVal.pydict []) _ r (by rw [← h2])
        subst h1
        refine ⟨fun hc => PyVal.noConfusion hc, ?_⟩
        rw [List.cons_append,
          ro_step_dict_found _ key _ (initial' ++ [fk]) (lookupStr_dictSet_self _ key _)
            (isNone_false_of_ne _ hne)]
        exact hro
      | some w =>
        cases hw : w.isNone with
        | true =>
          rw [tm_step_dict_nonefound true _ entries key w initial' hl hw] at h
          simp at h
        | false =>
          rw [tm_step_dict_found true _ entries key w initial' hl hw, Prod.mk.injEq] at h
          obtain ⟨h1, h2⟩ := h
          obtain ⟨hne, hro⟩ := ih w _ r (by rw [← h2])
          subst h1
          refine ⟨fun hc => PyVal.noConfusion hc, ?_⟩
          rw [List.cons_append,
            ro_step_dict_found _ key _ (initial' ++ [fk]) (lookupStr_dictSet_self _ key _)
              (isNone_false_of_ne _ hne)]
          exact hro
    | pylist xs =>
      cases hi : pyInt key with
      | none =>
        rw [tm_step_list_badint true _ xs key initial' hi] at h
        simp at h
      | some i =>
        by_cases hle : (xs.length : Int) ≤ i
        · rw [tm_step_list_extend _ xs key i initial' hi hle, Prod.mk.injEq] at h
          obtain ⟨h1, h2⟩ := h
          obtain ⟨hne, hro⟩ := ih (PyVal.pydict []) _ r (by rw [← h2])
          subst h1
          have h0 : 0 ≤ i := le_trans (Int.ofNat_nonneg xs.length) hle
          have hlen : (xs ++ List.replicate (i.toNat + 1 - xs.length)
              (traverseMod true (setFinal fk v) (PyVal.pydict []) initial').1).length
              = i.toNat + 1 := by
            simp [List.length_append, List.length_replicate]
            omega
          refine ⟨fun hc => PyVal.noConfusion hc, ?_⟩
          rw [List.cons_append,
            ro_step_list_inrange _ key i i.toNat (initial' ++ [fk]) hi
              (by rw [hlen]; exact resolveIdx_nonneg _ i h0 (by omega)),
            getD_append_right _ _ _ (by omega),
            getD_replicate _ _ _ (by omega)]
          exact hro
        · cases hr : resolveIdx xs.length i with
          | none =>
            rw [tm_step_list_oob true _ xs key i initial' hi (by simp [hle]) hr] at h
            simp at h
          | some j =>
            rw [tm_step_list_inrange true _ xs key i j initial' hi hr, Prod.mk.injEq] at h
            obtain ⟨h1, h2⟩ := h
            obtain ⟨hne, hro⟩ := ih (listGetD xs j) _ r (by rw [← h2])
            subst h1
            refine ⟨fun hc => PyVal.noConfusion hc, ?_⟩
            rw [List.cons_append,
              ro_step_list_inrange _ key i j (initial' ++ [fk]) hi
                (by rw [List.length_set]; exact hr),
              getD_set_self _ _ _ (resolveIdx_lt _ i j hr)]
            exact hro
    | pyset xs =>
      cases hi : pyInt key with
      | none =>
        rw [tm_step_pyset_badint true _ xs key initial' hi] at h
        simp at h
      | some i =>
        cases hr : resolveIdx xs.length i with
        | none =>
          rw [tm_step_pyset_oob true _ xs key i initial' hi hr] at h
          simp at h
        | some j =>
          rw [tm_step_pyset_inrange true _ xs key i j initial' hi hr, Prod.mk.injEq] at h
          obtain ⟨h1, h2⟩ := h
          obtain ⟨hne, hro⟩ := ih (listGetD xs j) _ r (by rw [← h2])
          subst h1
          refine ⟨fun hc => PyVal.noConfusion hc, ?_⟩
          rw [List.cons_append,
            ro_step_pyset_inrange _ key i j (initial' ++ [fk]) hi
              (by rw [List.length_set]; exact hr),
            getD_set_self _ _ _ (resolveIdx_lt _ i j hr)]
          exact hro
    | pytuple xs =>
      cases hi : pyInt key with
      | none =>
        rw [tm_step_pytuple_badint true _ xs key initial' hi] at h
        simp at h
      | some i =>
        cases hr : resolveIdx xs.length i with
        | none =>
          rw [tm_step_pytuple_oob true _ xs key i initial' hi hr] at h
          simp at h
        | some j =>
          rw [tm_step_pytuple_inrange true _ xs key i j initial' hi hr, Prod.mk.injEq] at h
          obtain ⟨h1, h2⟩ := h
          obtain ⟨hne, hro⟩ := ih (listGetD xs j) _ r (by rw [← h2])
          subst h1
          refine ⟨fun hc => PyVal.noConfusion hc, ?_⟩
          rw [List.cons_append,
            ro_step_pytuple_inrange _ key i j (initial' ++ [fk]) hi
              (by rw [List.length_set]; exact hr),
            getD_set_self _ _ _ (resolveIdx_lt _ i j hr)]
          exact hro
    | obj attrs =>
      cases hl : lookupStr attrs key with
      | none =>
        rw [tm_step_obj_missing true _ attrs key initial' hl] at h
        simp at h
      | some w =>
        rw [tm_step_obj_found true _ attrs key w initial' hl, Prod.mk.injEq] at h
        obtain ⟨h1, h2⟩ := h
        obtain ⟨hne, hro⟩ := ih w _ r (by rw [← h2])
        subst h1
        refine ⟨fun hc => PyVal.noConfusion hc, ?_⟩
        rw [List.cons_append,
          ro_step_obj_found _ key _ (initial' ++ [fk]) (lookupStr_dictSet_self _ key _)]
        exact hro
    | none => simp [traverseMod] at h
    | int n => simp [traverseMod] at h
    | str s => simp [traverseMod] at h
    | bool b => simp [traverseMod] at h

theorem del_get_aux (fk : String) :
    ∀ (initial : List String) (obj obj' r : PyVal) (d : List (String × PyVal)),
      traverseMod false (delFinal fk) obj initial = (obj', Except.ok r) →
      ((traverseRO obj initial).2 = Except.ok (PyVal.pydict d) ∨
       (traverseRO obj initial).2 = Except.ok (PyVal.obj d)) →
      nodupKeysB d = true →
      obj' ≠ PyVal.none ∧ isKeyNotFound (traverseRO obj' (initial ++ [fk])).2 = true := by
  intro initial
  induction initial with
  | nil =>
    intro obj obj' r d h hro hnd
    have hobj : obj = PyVal.pydict d ∨ obj = PyVal.obj d := by
      rcases hro with hro | hro
      · exact Or.inl (Except.ok.inj hro)
      · exact Or.inr (Except.ok.inj hro)
    simp only [traverseMod] at h
    rcases hobj with hobj | hobj
    · subst hobj
      simp only [delFinal] at h
      cases hs : (lookupStr d fk).isSome with
      | false => simp [hs] at h
      | true =>
        simp only [hs, if_true] at h
        obtain ⟨h1, h2⟩ := Prod.mk.injEq .. ▸ h
        subst h1
        refine ⟨fun hc => PyVal.noConfusion hc, ?_⟩
        rw [List.nil_append,
          ro_step_dict_missing _ fk [] (lookupStr_dictRemove_self d fk hnd)]
        rfl
    · subst hobj
      simp only [delFinal] at h
      cases hs : (lookupStr d fk).isSome with
      | false => simp [hs] at h
      | true =>
        simp only [hs, if_true] at h
        obtain ⟨h1, h2⟩ := Prod.mk.injEq .. ▸ h
        subst h1
        refine ⟨fun hc => PyVal.noConfusion hc, ?_⟩
        rw [List.nil_append,
          ro_step_obj_missing _ fk [] (lookupStr_dictRemove_self d fk hnd)]
        rfl
  | cons key initial' ih =>
    intro obj obj' r d h hro hnd
    cases obj with
    | pydict entries =>
      cases hl : lookupStr entries key with
      | none =>
        rw [tm_step_dict_missing _ entries key initial' hl] at h
        simp at h
      | some w =>
        cases hw : w.isNone with
        | true =>
          rw [tm_step_dict_nonefound false _ entries key w initial' hl hw] at h
          simp at h
        | false =>
          rw [tm_step_dict_found false _ entries key w initial' hl hw, Prod.mk.injEq] at h
          obtain ⟨h1, h2⟩ := h
          rw [ro_step_dict_found entries key w initial' hl hw] at hro
          obtain ⟨hne, hkn⟩ := ih w _ r d (by rw [← h2]) hro hnd
          subst h1
          refine ⟨fun hc => PyVal.noConfusion hc, ?_⟩
          rw [List.cons_append,
            ro_step_dict_found _ key _ (initial' ++ [fk]) (lookupStr_dictSet_self _ key _)
              (isNone_false_of_ne _ hne)]
          exact hkn
    | pylist xs =>
      cases hi : pyInt key with
      | none =>
        rw [tm_step_list_badint false _ xs key initial' hi] at h
        simp at h
      | some i =>
        cases hr : resolveIdx xs.length i with
        | none =>
          rw [tm_step_list_oob false _ xs key i initial' hi (by simp) hr] at h
          simp at h
        | some j =>
          rw [tm_step_list_inrange false _ xs key i j initial' hi hr, Prod.mk.injEq] at h
          obtain ⟨h1, h2⟩ := h
          rw [ro_step_list_inrange xs key i j initial' hi hr] at hro
          obtain ⟨hne, hkn⟩ := ih (listGetD xs j) _ r d (by rw [← h2]) hro hnd
          subst h1
          refine ⟨fun hc => PyVal.noConfusion hc, ?_⟩
          rw [List.cons_append,
            ro_step_list_inrange _ key i j (initial' ++ [fk]) hi
              (by rw [List.length_set]; exact hr),
            getD_set_self _ _ _ (resolveIdx_lt _ i j hr)]
          exact hkn
    | pyset xs =>
      cases hi : pyInt key with
      | none =>
        rw [tm_step_pyset_badint false _ xs key initial' hi] at h
        simp at h
      | some i =>
        cases hr : resolveIdx xs.length i with
        | none =>
          rw [tm_step_pyset_oob false _ xs key i initial' hi hr] at h
          simp at h
        | some j =>
          rw [tm_step_pyset_inrange false _ xs key i j initial' hi hr, Prod.mk.injEq] at h
          obtain ⟨h1, h2⟩ := h
          rw [ro_step_pyset_inrange xs key i j initial' hi hr] at hro
          obtain ⟨hne, hkn⟩ := ih (listGetD xs j) _ r d (by rw [← h2]) hro hnd
          subst h1
          refine ⟨fun hc => PyVal.noConfusion hc, ?_⟩
          rw [List.cons_append,
            ro_step_pyset_inrange _ key i j (initial' ++ [fk]) hi
              (by rw [List.length_set]; exact hr),
            getD_set_self _ _ _ (resolveIdx_lt _ i j hr)]
          exact hkn
    | pytuple xs =>
      cases hi : pyInt key with
      | none =>
        rw [tm_step_pytuple_badint false _ xs key initial' hi] at h
        simp at h
      | some i =>
        cases hr : resolveIdx xs.length i with
        | none =>
          rw [tm_step_pytuple_oob false _ xs key i initial' hi hr] at h
          simp at h
        | some j =>
          rw [tm_step_pytuple_inrange false _ xs key i j initial' hi hr, Prod.mk.injEq] at h
          obtain ⟨h1, h2⟩ := h
          rw [ro_step_pytuple_inrange xs key i j initial' hi hr] at hro
          obtain ⟨hne, hkn⟩ := ih (listGetD xs j) _ r d (by rw [← h2]) hro hnd
          subst h1
          refine ⟨fun hc => PyVal.noConfusion hc, ?_⟩
          rw [List.cons_append,
            ro_step_pytuple_inrange _ key i j (initial' ++ [fk]) hi
              (by rw [List.length_set]; exact hr),
            getD_set_self _ _ _ (resolveIdx_lt _ i j hr)]
          exact hkn
    | obj attrs =>
      cases hl : lookupStr attrs key with
      | none =>
        rw [tm_step_obj_missing false _ attrs key initial' hl] at h
        simp at h
      | some w =>
        rw [tm_step_obj_found false _ attrs key w initial' hl, Prod.mk.injEq] at h
        obtain ⟨h1, h2⟩ := h
        rw [ro_step_obj_found attrs key w initial' hl] at hro
        obtain ⟨hne, hkn⟩ := ih w _ r d (by rw [← h2]) hro hnd
        subst h1
        refine ⟨fun hc => PyVal.noConfusion hc, ?_⟩
        rw [List.cons_append,
          ro_step_obj_found _ key _ (initial' ++ [fk]) (lookupStr_dictSet_self _ key _)]
        exact hkn
    | none => simp [traverseMod] at h
    | int n => simp [traverseMod] at h
    | str s => simp [traverseMod] at h
    | bool b => simp [traverseMod] at h

theorem set_getD_self (xs : List PyVal) (j : Nat) (h : j < xs.length) :
    xs.set j (listGetD xs j) = xs := by
  induction xs generalizing j with
  | nil => simp at h
  | cons x rest ih =>
    cases j with
    | zero => simp [List.set, listGetD]
    | succ n =>
      simp only [List.set, listGetD]
      rw [ih n (by simpa using h)]

theorem fresh_ok (f : PyVal → PyVal × Except PyErr PyVal)
    (hf : ∀ d : List (String × PyVal), ∃ w, (f (PyVal.pydict d)).2 = Except.ok w) :
    ∀ rest : List String, ∃ w,
      (traverseMod true f (PyVal.pydict []) rest).2 = Except.ok w := by
  intro rest
  induction rest with
  | nil => exact hf []
  | cons key rest' ih =>
    rw [tm_step_dict_create f [] key rest' (by simp [lookupStr])]
    exact ih

theorem nomut_aux (f : PyVal → PyVal × Except PyErr PyVal)
    (hferr : ∀ v e, (f v).2 = Except.error e → (f v).1 = v)
    (hfdict : ∀ d : List (String × PyVal), ∃ w, (f (PyVal.pydict d)).2 = Except.ok w) :
    ∀ (keys : List String) (obj : PyVal) (e : PyErr),
      (traverseMod true f obj keys).2 = Except.error e →
      (traverseMod true f obj keys).1 = obj := by
  intro keys
  induction keys with
  | nil =>
    intro obj e h
    exact hferr obj e h
  | cons key rest ih =>
    intro obj e h
    cases obj with
    | pydict entries =>
      cases hl : lookupStr entries key with
      | none =>
        rw [tm_step_dict_create f entries key rest hl] at h
        obtain ⟨w, hw⟩ := fresh_ok f hfdict rest
        rw [hw] at h
        exact Except.noConfusion h
      | some w =>
        cases hw : w.isNone with
        | true =>
          rw [tm_step_dict_nonefound true f entries key w rest hl hw]
        | false =>
          rw [tm_step_dict_found true f entries key w rest hl hw] at h ⊢
          rw [ih w e h, dictSet_lookup_self entries key w hl]
    | pylist xs =>
      cases hi : pyInt key with
      | none => rw [tm_step_list_badint true f xs key rest hi]
      | some i =>
        by_cases hle : (xs.length : Int) ≤ i
        · rw [tm_step_list_extend f xs key i rest hi hle] at h
          obtain ⟨w, hw⟩ := fresh_ok f hfdict rest
          rw [hw] at h
          exact Except.noConfusion h
        · cases hr : resolveIdx xs.length i with
          | none => rw [tm_step_list_oob true f xs key i rest hi (by simp [hle]) hr]
          | some j =>
            rw [tm_step_list_inrange true f xs key i j rest hi hr] at h ⊢
            rw [ih (listGetD xs j) e h, set_getD_self xs j (resolveIdx_lt _ i j hr)]
    | pyset xs =>
      cases hi : pyInt key with
      | none => rw [tm_step_pyset_badint true f xs key rest hi]
      | some i =>
        cases hr : resolveIdx xs.length i with
        | none => rw [tm_step_pyset_oob true f xs key i rest hi hr]
        | some j =>
          rw [tm_step_pyset_inrange true f xs key i j rest hi hr] at h ⊢
          rw [ih (listGetD xs j) e h, set_getD_self xs j (resolveIdx_lt _ i j hr)]
    | pytuple xs =>
      cases hi : pyInt key with
      | none => rw [tm_step_pytuple_badint true f xs key rest hi]
      | some i =>
        cases hr : resolveIdx xs.length i with
        | none => rw [tm_step_pytuple_oob true f xs key i rest hi hr]
        | some j =>
          rw [tm_step_pytuple_inrange true f xs key i j rest hi hr] at h ⊢
          rw [ih (listGetD xs j) e h, set_getD_self xs j (resolveIdx_lt _ i j hr)]
    | obj attrs =>
      cases hl : lookupStr attrs key with
      | none => rw [tm_step_obj_missing true f attrs key rest hl]
      | some w =>
        rw [tm_step_obj_found true f attrs key w rest hl] at h ⊢
        rw [ih w e h, dictSet_lookup_self attrs key w hl]
    | none => simp [traverseMod]
    | int n => simp [traverseMod]
    | str s => simp [traverseMod]
    | bool b => simp [traverseMod]

theorem sdFinal_err_preserves (fk : String) (v : PyVal) (fp : Bool) (curr : PyVal) (e : PyErr)
    (h : (sdFinal fk v fp curr).2 = Except.error e) : (sdFinal fk v fp curr).1 = curr := by
  cases curr with
  | pyset xs => rfl
  | pydict entries =>
    cases hs : (lookupStr entries fk).isSome with
    | true => simp [sdFinal, hs] at h
    | false => simp [sdFinal, hs] at h
  | pylist xs =>
    cases hi : pyInt fk with
    | none => simp [sdFinal, hi]
    | some i =>
      by_cases hle : (xs.length : Int) ≤ i
      · cases fp with
        | true => simp [sdFinal, hi, hle] at h
        | false => simp [sdFinal, hi, hle]
      · cases hr : resolveIdx xs.length i with
        | none => simp [sdFinal, hi, hle, hr]
        | some j => simp [sdFinal, hi, hle, hr] at h
  | obj attrs =>
    cases hs : (lookupStr attrs fk).isSome with
    | true => simp [sdFinal, hs] at h
    | false => simp [sdFinal, hs] at h
  | none => rfl
  | int n => rfl
  | str s => rfl
  | bool b => rfl
  | pytuple xs => rfl

theorem sdFinal_dict_ok (fk : String) (v : PyVal) (fp : Bool)
    (d : List (String × PyVal)) :
    ∃ w, (sdFinal fk v fp (PyVal.pydict d)).2 = Except.ok w := by
  refine ⟨PyVal.none, ?_⟩
  cases hs : (lookupStr d fk).isSome with
  | true => simp [sdFinal, hs]
  | false => simp [sdFinal, hs]

theorem dotFree_iff (s : String) : dotFree s = true ↔ ∀ c ∈ s.data, c ≠ '.' := by
  simp [dotFree]

theorem splitDotAux_ne_nil (l : List Char) : splitDotAux l ≠ [] := by
  induction l with
  | nil => simp [splitDotAux]
  | cons c rest ih =>
    by_cases hc : c = '.'
    · simp [splitDotAux, hc]
    · simp only [splitDotAux, if_neg hc]
      cases hs : splitDotAux rest with
      | nil => simp
      | cons g gs => simp

theorem splitDotAux_dotfree (l : List Char) (h : ∀ c ∈ l, c ≠ '.') :
    splitDotAux l = [l] := by
  induction l with
  | nil => rfl
  | cons c rest ih =>
    have hc : c ≠ '.' := h c (List.mem_cons_self c rest)
    have hrest := ih (fun x hx => h x (List.mem_cons_of_mem c hx))
    simp [splitDotAux, hc, hrest]

theorem splitDotAux_append_dot (a r : List Char) (h : ∀ c ∈ a, c ≠ '.') :
    splitDotAux (a ++ '.' :: r) = a :: splitDotAux r := by
  induction a with
  | nil => simp [splitDotAux]
  | cons c rest ih =>
    have hc : c ≠ '.' := h c (List.mem_cons_self c rest)
    have hrest := ih (fun x hx => h x (List.mem_cons_of_mem c hx))
    simp only [List.cons_append, List.append_eq, splitDotAux, if_neg hc, hrest]

theorem dotJoin_cons (k : String) (p : List String) (h : p ≠ []) :
    dotJoin (k :: p) = k ++ "." ++ dotJoin p := by
  cases p with
  | nil => exact absurd rfl h
  | cons k2 rest => rfl

theorem splitDot_dotJoin (p : List String) (hne : p ≠ [])
    (hdf : ∀ s ∈ p, dotFree s = true) : splitDot (dotJoin p) = p := by
  induction p with
  | nil => exact absurd rfl hne
  | cons k p' ih =>
    cases p' with
    | nil =>
      have hk := (dotFree_iff k).mp (hdf k (List.mem_cons_self k []))
      simp only [dotJoin, splitDot, splitDotAux_dotfree k.data hk, List.map]
    | cons k2 rest =>
      have hk := (dotFree_iff k).mp (hdf k (List.mem_cons_self k (k2 :: rest)))
      have hdata : (dotJoin (k :: k2 :: rest)).data
          = k.data ++ '.' :: (dotJoin (k2 :: rest)).data := by
        rw [dotJoin_cons k (k2 :: rest) (by simp), String.data_append, String.data_append]
        simp
      have ih2 := ih (by simp) (fun s hs => hdf s (List.mem_cons_of_mem k hs))
      simp only [splitDot, hdata, splitDotAux_append_dot k.data _ hk, List.map_cons]
      have h1 : String.mk k.data = k := rfl
      have h2 : List.map (fun l => String.mk l) (splitDotAux (dotJoin (k2 :: rest)).data)
          = k2 :: rest := ih2
      rw [h1, h2]

theorem dotJoin_inj (p q : List String) (hp : p ≠ []) (hq : q ≠ [])
    (hdp : ∀ s ∈ p, dotFree s = true) (hdq : ∀ s ∈ q, dotFree s = true)
    (h : dotJoin p = dotJoin q) : p = q := by
  rw [← splitDot_dotJoin p hp hdp, ← splitDot_dotJoin q hq hdq, h]

theorem str_append_assoc (a b c : String) : (a ++ b) ++ c = a ++ (b ++ c) :=
  String.ext (by simp [String.data_append])

theorem string_append_left_cancel (s a b : String) (h : s ++ a = s ++ b) : a = b := by
  have hd := congrArg String.data h
  rw [String.data_append, String.data_append] at hd
  exact String.ext (List.append_cancel_left hd)

theorem append_dot_ne_empty (pk k : String) : pk ++ "." ++ k ≠ "" := by
  intro h
  have hd := congrArg String.data h
  rw [String.data_append, String.data_append] at hd
  simp at hd

theorem sizeOf_sub_lt (k : String) (sub rest : List (String × PyVal)) :
    sizeOf sub < sizeOf ((k, PyVal.pydict sub) :: rest) := by
  simp
  omega

theorem sizeOf_rest_lt (k : String) (v : PyVal) (rest : List (String × PyVal)) :
    sizeOf rest < sizeOf ((k, v) :: rest) := by
  simp

theorem leaves_cons_dict (k : String) (sub rest : List (String × PyVal)) :
    leaves ((k, PyVal.pydict sub) :: rest) =
      (leaves sub).map (fun pv => (k :: pv.1, pv.2)) ++ leaves rest := by
  simp [leaves]

theorem leaves_cons_nondict (k : String) (v : PyVal) (rest : List (String × PyVal))
    (h : v.isDict = false) :
    leaves ((k, v) :: rest) = ([k], v) :: leaves rest := by
  cases v <;> simp_all [leaves, PyVal.isDict]

theorem flatOkDict_cons (k : String) (v : PyVal) (rest : List (String × PyVal))
    (h : flatOkDict ((k, v) :: rest) = true) :
    k ≠ "" ∧ dotFree k = true ∧ flatOkDict rest = true := by
  cases v <;> (simp [flatOkDict] at h; tauto)

theorem flatOkDict_cons_dict (k : String) (sub rest : List (String × PyVal))
    (h : flatOkDict ((k, PyVal.pydict sub) :: rest) = true) :
    sub ≠ [] ∧ flatOkDict sub = true := by
  simp [flatOkDict] at h
  exact ⟨h.1.2.1, h.1.2.2⟩

theorem flatKeysOk_cons (k : String) (v : PyVal) (rest : List (String × PyVal))
    (h : flatKeysOkDict ((k, v) :: rest) = true) :
    k ≠ "" ∧ dotFree k = true ∧ flatKeysOkDict rest = true := by
  cases v <;> (simp [flatKeysOkDict] at h; tauto)

theorem flatKeysOk_cons_dict (k : String) (sub rest : List (String × PyVal))
    (h : flatKeysOkDict ((k, PyVal.pydict sub) :: rest) = true) :
    flatKeysOkDict sub = true := by
  simp [flatKeysOkDict] at h
  tauto

theorem flatOk_imp_keysOk_aux : ∀ (n : Nat) (m : List (String × PyVal)), sizeOf m ≤ n →
    flatOkDict m = true → flatKeysOkDict m = true := by
  intro n
  induction n using Nat.strong_induction_on with
  | _ n ih =>
    intro m hm hok
    cases m with
    | nil => simp [flatKeysOkDict]
    | cons p rest =>
      obtain ⟨k, v⟩ := p
      obtain ⟨hk, hdk, hokrest⟩ := flatOkDict_cons _ _ _ hok
      have hrest := ih (sizeOf rest) (lt_of_lt_of_le (sizeOf_rest_lt k v rest) hm) rest
        le_rfl hokrest
      cases v
      case pydict sub =>
        obtain ⟨hsubne, hoksub⟩ := flatOkDict_cons_dict _ _ _ hok
        have hsub := ih (sizeOf sub) (lt_of_lt_of_le (sizeOf_sub_lt k sub rest) hm) sub
          le_rfl hoksub
        simp [flatKeysOkDict, hk, hdk, hsub, hrest]
      all_goals simp [flatKeysOkDict, hk, hdk, hrest]

theorem flatOk_imp_keysOk (m : List (String × PyVal)) (hok : flatOkDict m = true) :
    flatKeysOkDict m = true :=
  flatOk_imp_keysOk_aux (sizeOf m) m le_rfl hok

theorem wfDict_cons (k : String) (v : PyVal) (rest : List (String × PyVal))
    (h : wfDict ((k, v) :: rest) = true) :
    (∀ a b, (a, b) ∈ rest → a ≠ k) ∧ wfDict rest = true := by
  cases v <;> (simp [wfDict, Bool.not_eq_true'] at h; tauto)

theorem wfDict_cons_dict (k : String) (sub rest : List (String × PyVal))
    (h : wfDict ((k, PyVal.pydict sub) :: rest) = true) :
    wfDict sub = true := by
  simp [wfDict] at h
  tauto

theorem leaves_head (m : List (String × PyVal)) :
    ∀ pv ∈ leaves m, ∃ k t, pv.1 = k :: t ∧ ∃ w, (k, w) ∈ m := by
  induction m with
  | nil => simp [leaves]
  | cons p rest ih =>
    obtain ⟨k, v⟩ := p
    intro pv hpv
    cases v with
    | pydict sub =>
      rw [leaves_cons_dict] at hpv
      rcases List.mem_append.mp hpv with hb | hr
      · obtain ⟨pv', hpv', hpe⟩ := List.mem_map.mp hb
        refine ⟨k, pv'.1, ?_, PyVal.pydict sub, List.mem_cons_self _ _⟩
        rw [← hpe]
      · obtain ⟨k', t', he, w, hw⟩ := ih pv hr
        exact ⟨k', t', he, w, List.mem_cons_of_mem _ hw⟩
    | none =>
      simp only [leaves, List.singleton_append] at hpv
      rcases List.mem_cons.mp hpv with hb | hr
      · subst hb; exact ⟨k, [], rfl, _, List.mem_cons_self _ _⟩
      · obtain ⟨k', t', he, w, hw⟩ := ih pv hr
        exact ⟨k', t', he, w, List.mem_cons_of_mem _ hw⟩
    | int n =>
      simp only [leaves, List.singleton_append] at hpv
      rcases List.mem_cons.mp hpv with hb | hr
      · subst hb; exact ⟨k, [], rfl, _, List.mem_cons_self _ _⟩
      · obtain ⟨k', t', he, w, hw⟩ := ih pv hr
        exact ⟨k', t', he, w, List.mem_cons_of_mem _ hw⟩
    | str s =>
      simp only [leaves, List.singleton_append] at hpv
      rcases List.mem_cons.mp hpv with hb | hr
      · subst hb; exact ⟨k, [], rfl, _, List.mem_cons_self _ _⟩
      · obtain ⟨k', t', he, w, hw⟩ := ih pv hr
        exact ⟨k', t', he, w, List.mem_cons_of_mem _ hw⟩
    | bool b =>
      simp only [leaves, List.singleton_append] at hpv
      rcases List.mem_cons.mp hpv with hb | hr
      · subst hb; exact ⟨k, [], rfl, _, List.mem_cons_self _ _⟩
      · obtain ⟨k', t', he, w, hw⟩ := ih pv hr
        exact ⟨k', t', he, w, List.mem_cons_of_mem _ hw⟩
    | pylist xs =>
      simp only [leaves, List.singleton_append] at hpv
      rcases List.mem_cons.mp hpv with hb | hr
      · subst hb; exact ⟨k, [], rfl, _, List.mem_cons_self _ _⟩
      · obtain ⟨k', t', he, w, hw⟩ := ih pv hr
        exact ⟨k', t', he, w, List.mem_cons_of_mem _ hw⟩
    | pyset xs =>
      simp only [leaves, List.singleton_append] at hpv
      rcases List.mem_cons.mp hpv with hb | hr
      · subst hb; exact ⟨k, [], rfl, _, List.mem_cons_self _ _⟩
      · obtain ⟨k', t', he, w, hw⟩ := ih pv hr
        exact ⟨k', t', he, w, List.mem_cons_of_mem _ hw⟩
    | pytuple xs =>
      simp only [leaves, List.singleton_append] at hpv
      rcases List.mem_cons.mp hpv with hb | hr
      · subst hb; exact ⟨k, [], rfl, _, List.mem_cons_self _ _⟩
      · obtain ⟨k', t', he, w, hw⟩ := ih pv hr
        exact ⟨k', t', he, w, List.mem_cons_of_mem _ hw⟩
    | obj attrs =>
      simp only [leaves, List.singleton_append] at hpv
      rcases List.mem_cons.mp hpv with hb | hr
      · subst hb; exact ⟨k, [], rfl, _, List.mem_cons_self _ _⟩
      · obtain ⟨k', t', he, w, hw⟩ := ih pv hr
        exact ⟨k', t', he, w, List.mem_cons_of_mem _ hw⟩

theorem leaves_path_facts_aux : ∀ (n : Nat) (m : List (String × PyVal)), sizeOf m ≤ n →
    flatKeysOkDict m = true →
    ∀ pv ∈ leaves m, pv.1 ≠ [] ∧ ∀ s ∈ pv.1, s ≠ "" ∧ dotFree s = true := by
  intro n
  induction n using Nat.strong_induction_on with
  | _ n ih =>
    intro m hm hok pv hpv
    cases m with
    | nil => simp [leaves] at hpv
    | cons p rest =>
      obtain ⟨k, v⟩ := p
      obtain ⟨hk, hdk, hokrest⟩ := flatKeysOk_cons _ _ _ hok
      have hrest := fun pv hpv =>
        ih (sizeOf rest) (lt_of_lt_of_le (sizeOf_rest_lt k v rest) hm) rest le_rfl
          hokrest pv hpv
      cases v
      case pydict sub =>
        have hoksub := flatKeysOk_cons_dict _ _ _ hok
        rw [leaves_cons_dict] at hpv
        rcases List.mem_append.mp hpv with hb | hr
        · obtain ⟨pv', hpv', hpe⟩ := List.mem_map.mp hb
          have hf := ih (sizeOf sub) (lt_of_lt_of_le (sizeOf_sub_lt k sub rest) hm) sub
            le_rfl hoksub pv' hpv'
          rw [← hpe]
          refine ⟨by simp, ?_⟩
          intro s hs
          rcases List.mem_cons.mp hs with h1 | h2
          · subst h1
            exact ⟨hk, hdk⟩
          · exact hf.2 s h2
        · exact hrest pv hr
      all_goals
        simp only [leaves, List.singleton_append] at hpv
        rcases List.mem_cons.mp hpv with hb | hr
        · subst hb
          refine ⟨by simp, ?_⟩
          intro s hs
          rcases List.mem_cons.mp hs with h1 | h2
          · subst h1
            exact ⟨hk, hdk⟩
          · simp at h2
        · exact hrest pv hr

theorem leaves_path_facts (m : List (String × PyVal)) (hok : flatKeysOkDict m = true) :
    ∀ pv ∈ leaves m, pv.1 ≠ [] ∧ ∀ s ∈ pv.1, s ≠ "" ∧ dotFree s = true :=
  leaves_path_facts_aux (sizeOf m) m le_rfl hok

theorem leaves_ne_nil_aux : ∀ (n : Nat) (m : List (String × PyVal)), sizeOf m ≤ n →
    flatOkDict m = true → m ≠ [] → leaves m ≠ [] := by
  intro n
  induction n using Nat.strong_induction_on with
  | _ n ih =>
    intro m hm hok hne
    cases m with
    | nil => exact absurd rfl hne
    | cons p rest =>
      obtain ⟨k, v⟩ := p
      cases v
      case pydict sub =>
        obtain ⟨hsubne, hoksub⟩ := flatOkDict_cons_dict _ _ _ hok
        have hsub := ih (sizeOf sub) (lt_of_lt_of_le (sizeOf_sub_lt k sub rest) hm) sub
          le_rfl hoksub hsubne
        rw [leaves_cons_dict]
        intro happ
        rcases List.append_eq_nil.mp happ with ⟨hmap, _⟩
        exact hsub (List.map_eq_nil_iff.mp hmap)
      all_goals
        simp only [leaves, List.singleton_append]
        exact List.cons_ne_nil _ _

theorem leaves_ne_nil (m : List (String × PyVal)) (hok : flatOkDict m = true)
    (hne : m ≠ []) : leaves m ≠ [] :=
  leaves_ne_nil_aux (sizeOf m) m le_rfl hok hne

theorem leaves_keys_nodup_aux : ∀ (n : Nat) (m : List (String × PyVal)), sizeOf m ≤ n →
    wfDict m = true → ((leaves m).map Prod.fst).Nodup := by
  intro n
  induction n using Nat.strong_induction_on with
  | _ n ih =>
    intro m hm hwf
    cases m with
    | nil => simp [leaves]
    | cons p rest =>
      obtain ⟨k, v⟩ := p
      obtain ⟨hne, hwfrest⟩ := wfDict_cons _ _ _ hwf
      have hrest := ih (sizeOf rest) (lt_of_lt_of_le (sizeOf_rest_lt k v rest) hm) rest
        le_rfl hwfrest
      cases v
      case pydict sub =>
        have hwfsub := wfDict_cons_dict _ _ _ hwf
        have hsub := ih (sizeOf sub) (lt_of_lt_of_le (sizeOf_sub_lt k sub rest) hm) sub
          le_rfl hwfsub
        rw [leaves_cons_dict, List.map_append, List.map_map]
        rw [List.nodup_append]
        refine ⟨?_, hrest, ?_⟩
        · have heq : (leaves sub).map (Prod.fst ∘ fun pv => (k :: pv.1, pv.2))
              = ((leaves sub).map Prod.fst).map (fun q => k :: q) := by
            rw [List.map_map]
            rfl
          rw [heq]
          exact hsub.map (fun a b hab => by injection hab)
        · intro x hx hx2
          obtain ⟨pv', hpv', hxe⟩ := List.mem_map.mp hx
          obtain ⟨pv2, hpv2, hxe2⟩ := List.mem_map.mp hx2
          obtain ⟨k', t', hpe, w, hw⟩ := leaves_head rest pv2 hpv2
          have h1 : x = k :: pv'.1 := by rw [← hxe]; rfl
          have h2 : x = k' :: t' := by rw [← hxe2, hpe]
          rw [h1] at h2
          have hkk : k = k' := (List.cons.injEq _ _ _ _).mp h2 |>.1
          exact hne k' w hw hkk.symm
      all_goals
        simp only [leaves, List.singleton_append, List.map_cons]
        rw [List.nodup_cons]
        refine ⟨?_, hrest⟩
        intro hmem
        obtain ⟨pv2, hpv2, hxe2⟩ := List.mem_map.mp hmem
        obtain ⟨k', t', hpe, w, hw⟩ := leaves_head rest pv2 hpv2
        rw [hpe] at hxe2
        have hkk : k' = k := (List.cons.injEq _ _ _ _).mp hxe2 |>.1
        exact hne k' w hw hkk

theorem leaves_keys_nodup (m : List (String × PyVal)) (hwf : wfDict m = true) :
    ((leaves m).map Prod.fst).Nodup :=
  leaves_keys_nodup_aux (sizeOf m) m le_rfl hwf

theorem foldl_dictSet_nodup : ∀ (l acc : List (String × PyVal)),
    ((acc ++ l).map Prod.fst).Nodup →
    l.foldl (fun d kv => dictSet d kv.1 kv.2) acc = acc ++ l := by
  intro l
  induction l with
  | nil =>
    intro acc h
    simp
  | cons kv rest ih =>
    intro acc h
    obtain ⟨k, v⟩ := kv
    have hk : lookupStr acc k = Option.none := by
      rw [lookupStr_eq_none_iff]
      intro p hp hpk
      rw [List.map_append] at h
      have hdisj := List.disjoint_of_nodup_append h
      exact hdisj (List.mem_map.mpr ⟨p, hp, hpk⟩)
        (by simp)
    rw [List.foldl_cons]
    have hstep : dictSet acc k v = acc ++ [(k, v)] := dictSet_absent acc k v hk
    have hnodup2 : (((acc ++ [(k, v)]) ++ rest).map Prod.fst).Nodup := by
      rw [List.append_assoc]
      simpa using h
    calc rest.foldl (fun d kv => dictSet d kv.1 kv.2) (dictSet acc k v)
        = rest.foldl (fun d kv => dictSet d kv.1 kv.2) (acc ++ [(k, v)]) := by rw [hstep]
      _ = (acc ++ [(k, v)]) ++ rest := ih (acc ++ [(k, v)]) hnodup2
      _ = acc ++ (k, v) :: rest := by simp

theorem pyDictOfList_nodup (l : List (String × PyVal))
    (h : (l.map Prod.fst).Nodup) : pyDictOfList l = l := by
  have := foldl_dictSet_nodup l [] (by simpa using h)
  simpa [pyDictOfList] using this

theorem dotJoin_singleton (k : String) : dotJoin [k] = k := rfl

theorem prefJoin_singleton (pk k : String) :
    prefJoin pk [k] = if pk = "" then k else pk ++ "." ++ k := by
  by_cases hpk : pk = "" <;> simp [prefJoin, hpk, dotJoin]

theorem prefJoin_cons (pk k : String) (p : List String) (hk : k ≠ "") (hp : p ≠ []) :
    prefJoin pk (k :: p) = prefJoin (if pk = "" then k else pk ++ "." ++ k) p := by
  by_cases hpk : pk = ""
  · subst hpk
    rw [if_pos rfl]
    simp only [prefJoin, if_pos rfl, if_neg hk]
    exact dotJoin_cons k p hp
  · rw [if_neg hpk]
    have hnk : pk ++ "." ++ k ≠ "" := append_dot_ne_empty pk k
    simp only [prefJoin, if_neg hpk, if_neg hnk]
    rw [dotJoin_cons k p hp]
    apply String.ext
    simp [String.data_append]

theorem flat_keys_nodup (m : List (String × PyVal)) (pk : String)
    (hwf : wfDict m = true) (hok : flatKeysOkDict m = true) :
    ((leaves m).map (fun pv => prefJoin pk pv.1)).Nodup := by
  have hmm : (leaves m).map (fun pv => prefJoin pk pv.1)
      = ((leaves m).map Prod.fst).map (fun q => prefJoin pk q) := by
    rw [List.map_map]
    rfl
  rw [hmm]
  apply List.Nodup.map_on ?_ (leaves_keys_nodup m hwf)
  intro p hp q hq hpq
  obtain ⟨pvp, hpvp, hep⟩ := List.mem_map.mp hp
  obtain ⟨pvq, hpvq, heq⟩ := List.mem_map.mp hq
  have hfp := leaves_path_facts m hok pvp hpvp
  have hfq := leaves_path_facts m hok pvq hpvq
  subst hep
  subst heq
  apply dotJoin_inj _ _ hfp.1 hfq.1 (fun s hs => (hfp.2 s hs).2) (fun s hs => (hfq.2 s hs).2)
  by_cases hpk : pk = ""
  · simpa [prefJoin, hpk] using hpq
  · simp only [prefJoin, if_neg hpk] at hpq
    exact string_append_left_cancel (pk ++ ".") _ _ hpq

theorem flat_spec_aux : ∀ (n : Nat) (m : List (String × PyVal)), sizeOf m ≤ n → ∀ pk,
    wfDict m = true → flatKeysOkDict m = true →
    flattenItems m pk "." = (leaves m).map (fun pv => (prefJoin pk pv.1, pv.2)) ∧
    flatten_nested_dict m pk "." = (leaves m).map (fun pv => (prefJoin pk pv.1, pv.2)) := by
  intro n
  induction n using Nat.strong_induction_on with
  | _ n ih =>
    intro m hm pk hwf hok
    have hitems : flattenItems m pk "."
        = (leaves m).map (fun pv => (prefJoin pk pv.1, pv.2)) := by
      cases m with
      | nil => simp [flattenItems, leaves]
      | cons p rest =>
        obtain ⟨k, v⟩ := p
        obtain ⟨hk, hdk, hokrest⟩ := flatKeysOk_cons _ _ _ hok
        obtain ⟨hnedup, hwfrest⟩ := wfDict_cons _ _ _ hwf
        have hrest := ih (sizeOf rest) (lt_of_lt_of_le (sizeOf_rest_lt k v rest) hm) rest
          le_rfl pk hwfrest hokrest
        cases v
        case pydict sub =>
          have hoksub := flatKeysOk_cons_dict _ _ _ hok
          have hwfsub := wfDict_cons_dict _ _ _ hwf
          have hsub := ih (sizeOf sub) (lt_of_lt_of_le (sizeOf_sub_lt k sub rest) hm) sub
            le_rfl (if pk = "" then k else pk ++ "." ++ k) hwfsub hoksub
          rw [leaves_cons_dict]
          simp only [flattenItems]
          rw [hsub.2, hrest.1, List.map_append, List.map_map]
          congr 1
          apply List.map_congr_left
          intro pv hpv
          have hppv := leaves_path_facts sub hoksub pv hpv
          simp only [Function.comp]
          rw [prefJoin_cons pk k pv.1 hk hppv.1]
        all_goals
          simp only [flattenItems, leaves, List.singleton_append, List.map_cons]
          rw [hrest.1, prefJoin_singleton]
    refine ⟨hitems, ?_⟩
    simp only [flatten_nested_dict]
    rw [hitems]
    apply pyDictOfList_nodup
    have hmm : ((leaves m).map (fun pv => (prefJoin pk pv.1, pv.2))).map Prod.fst
        = (leaves m).map (fun pv => prefJoin pk pv.1) := by
      rw [List.map_map]
      rfl
    rw [hmm]
    exact flat_keys_nodup m pk hwf hok

theorem flat_spec (m : List (String × PyVal)) (pk : String)
    (hwf : wfDict m = true) (hok : flatKeysOkDict m = true) :
    flattenItems m pk "." = (leaves m).map (fun pv => (prefJoin pk pv.1, pv.2)) ∧
    flatten_nested_dict m pk "." = (leaves m).map (fun pv => (prefJoin pk pv.1, pv.2)) :=
  flat_spec_aux (sizeOf m) m le_rfl pk hwf hok

theorem splitDot_single (k : String) (hdk : dotFree k = true) : splitDot k = [k] := by
  have hchars := (dotFree_iff k).mp hdk
  simp only [splitDot, splitDotAux_dotfree k.data hchars, List.map]

theorem exceptMapCongr {A B : Type} (e : Except PyErr A) (f g : A → B)
    (h : ∀ a, f a = g a) : Except.map f e = Except.map g e := by
  cases e with
  | error err => rfl
  | ok a => simp [Except.map, h a]

theorem parseInsert_single (result : List (String × PyVal)) (k : String) (v : PyVal) :
    parseInsert result [k] v = Except.ok (dictSet result k v) := rfl

theorem parseInsert_descend_found (result d : List (String × PyVal)) (k : String)
    (p : List String) (v : PyVal) (hp : p ≠ [])
    (hl : lookupStr result k = Option.some (PyVal.pydict d)) :
    parseInsert result (k :: p) v
      = Except.map (fun s => dictSet result k (PyVal.pydict s)) (parseInsert d p v) := by
  cases p with
  | nil => exact absurd rfl hp
  | cons k2 rest =>
    simp only [parseInsert, hl]
    cases parseInsert d (k2 :: rest) v with
    | ok s => simp [Except.map]
    | error e => simp [Except.map]

theorem parseInsert_descend_create (result : List (String × PyVal)) (k : String)
    (p : List String) (v : PyVal) (hp : p ≠ [])
    (hl : lookupStr result k = Option.none) :
    parseInsert result (k :: p) v
      = Except.map (fun s => dictSet result k (PyVal.pydict s)) (parseInsert [] p v) := by
  cases p with
  | nil => exact absurd rfl hp
  | cons k2 rest =>
    simp only [parseInsert, hl]
    cases parseInsert [] (k2 :: rest) v with
    | ok s => simp [Except.map, dictSet_dictSet]
    | error e => simp [Except.map]

theorem parseLoop_append : ∀ (l1 : List (String × PyVal)) (acc l2 : List (String × PyVal)),
    parseLoop acc (l1 ++ l2)
      = (match parseLoop acc l1 with
         | Except.ok a => parseLoop a l2
         | Except.error e => Except.error e) := by
  intro l1
  induction l1 with
  | nil => intro acc l2; rfl
  | cons kv rest ih =>
    intro acc l2
    obtain ⟨key, v⟩ := kv
    simp only [List.cons_append, parseLoop]
    cases parseInsert acc (splitDot key) v with
    | ok a => exact ih a l2
    | error e => rfl

theorem lookupStr_append_single (acc : List (String × PyVal)) (a k : String) (w : PyVal)
    (h : a ≠ k) : lookupStr (acc ++ [(k, w)]) a = lookupStr acc a := by
  have hk : k ≠ a := Ne.symm h
  induction acc with
  | nil => simp [lookupStr, hk]
  | cons p rest ih =>
    obtain ⟨k1, w1⟩ := p
    by_cases h1 : k1 = a
    · simp [lookupStr, h1]
    · simp [lookupStr, h1, ih]

theorem parse_block : ∀ (pvs : List (List String × PyVal))
    (acc : List (String × PyVal)) (k : String) (d : List (String × PyVal)),
    pvs ≠ [] →
    (∀ pv ∈ pvs, pv.1 ≠ [] ∧ ∀ s ∈ pv.1, dotFree s = true) →
    dotFree k = true →
    (lookupStr acc k = Option.some (PyVal.pydict d) ∨
      (lookupStr acc k = Option.none ∧ d = [])) →
    parseLoop acc (pvs.map (fun pv => (dotJoin (k :: pv.1), pv.2)))
      = Except.map (fun s => dictSet acc k (PyVal.pydict s))
          (parseLoop d (pvs.map (fun pv => (dotJoin pv.1, pv.2)))) := by
  intro pvs
  induction pvs with
  | nil => intro acc k d hne; exact absurd rfl hne
  | cons pv pvs' ih =>
    intro acc k d _ hfacts hdk hacc
    obtain ⟨hp1, hpdf⟩ := hfacts pv (List.mem_cons_self pv pvs')
    have hsplit : splitDot (dotJoin (k :: pv.1)) = k :: pv.1 := by
      apply splitDot_dotJoin (k :: pv.1) (by simp)
      intro s hs
      rcases List.mem_cons.mp hs with h1 | h2
      · subst h1; exact hdk
      · exact hpdf s h2
    have hsplit2 : splitDot (dotJoin pv.1) = pv.1 := splitDot_dotJoin pv.1 hp1 hpdf
    have hinsert : parseInsert acc (k :: pv.1) pv.2
        = Except.map (fun s => dictSet acc k (PyVal.pydict s)) (parseInsert d pv.1 pv.2) := by
      rcases hacc with hfound | ⟨habsent, hd⟩
      · exact parseInsert_descend_found acc d k pv.1 pv.2 hp1 hfound
      · subst hd
        exact parseInsert_descend_create acc k pv.1 pv.2 hp1 habsent
    simp only [List.map_cons, parseLoop, hsplit, hsplit2, hinsert]
    cases hpi : parseInsert d pv.1 pv.2 with
    | error e => simp [Except.map]
    | ok d1 =>
      simp only [Except.map]
      cases pvs' with
      | nil => simp [parseLoop, Except.map]
      | cons pv2 pvs2 =>
        have hstep := ih (dictSet acc k (PyVal.pydict d1)) k d1 (by simp)
          (fun q hq => hfacts q (List.mem_cons_of_mem pv hq)) hdk
          (Or.inl (lookupStr_dictSet_self acc k (PyVal.pydict d1)))
        rw [hstep]
        exact exceptMapCongr _ _ _ (fun s => dictSet_dictSet acc k _ _)

theorem parse_leaves_aux : ∀ (n : Nat) (m : List (String × PyVal)), sizeOf m ≤ n →
    ∀ acc : List (String × PyVal),
    wfDict m = true → flatOkDict m = true →
    (∀ a b, (a, b) ∈ m → lookupStr acc a = Option.none) →
    parseLoop acc ((leaves m).map (fun pv => (dotJoin pv.1, pv.2)))
      = Except.ok (acc ++ m) := by
  intro n
  induction n using Nat.strong_induction_on with
  | _ n ih =>
    intro m hm acc hwf hok habs
    cases m with
    | nil => simp [leaves, parseLoop]
    | cons p rest =>
      obtain ⟨k, v⟩ := p
      obtain ⟨hk, hdk, hokrest⟩ := flatOkDict_cons _ _ _ hok
      obtain ⟨hnedup, hwfrest⟩ := wfDict_cons _ _ _ hwf
      have hacc_k : lookupStr acc k = Option.none := habs k v (List.mem_cons_self _ _)
      cases v
      case pydict sub =>
        obtain ⟨hsubne, hoksub⟩ := flatOkDict_cons_dict _ _ _ hok
        have hwfsub := wfDict_cons_dict _ _ _ hwf
        rw [leaves_cons_dict, List.map_append, parseLoop_append]
        have hblock : (List.map (fun pv => (dotJoin pv.1, pv.2))
              ((leaves sub).map (fun pv => (k :: pv.1, pv.2))))
            = (leaves sub).map (fun pv => (dotJoin (k :: pv.1), pv.2)) := by
          rw [List.map_map]
          rfl
        rw [hblock]
        have hinner := ih (sizeOf sub) (lt_of_lt_of_le (sizeOf_sub_lt k sub rest) hm) sub
          le_rfl [] hwfsub hoksub (by intro a b _; rfl)
        rw [List.nil_append] at hinner
        have hblockeval := parse_block (leaves sub) acc k []
          (leaves_ne_nil sub hoksub hsubne)
          (fun pv hpv => ⟨(leaves_path_facts sub (flatOk_imp_keysOk sub hoksub) pv hpv).1,
            fun s hs =>
              ((leaves_path_facts sub (flatOk_imp_keysOk sub hoksub) pv hpv).2 s hs).2⟩)
          hdk (Or.inr ⟨hacc_k, rfl⟩)
        rw [hblockeval, hinner]
        simp only [Except.map]
        have hset : dictSet acc k (PyVal.pydict sub) = acc ++ [(k, PyVal.pydict sub)] :=
          dictSet_absent acc k _ hacc_k
        rw [hset]
        have hrest := ih (sizeOf rest)
          (lt_of_lt_of_le (sizeOf_rest_lt k (PyVal.pydict sub) rest) hm) rest le_rfl
          (acc ++ [(k, PyVal.pydict sub)]) hwfrest hokrest
          (by
            intro a b hab
            rw [lookupStr_append_single acc a k _ (hnedup a b hab)]
            exact habs a b (List.mem_cons_of_mem _ hab))
        rw [hrest]
        simp
      all_goals
        simp only [leaves, List.singleton_append, List.map_cons, parseLoop,
          dotJoin_singleton, splitDot_single k hdk, parseInsert_single]
        rw [dictSet_absent acc k _ hacc_k]
        rw [ih (sizeOf rest) (lt_of_lt_of_le (sizeOf_rest_lt k _ rest) hm) rest le_rfl
          (acc ++ [(k, _)]) hwfrest hokrest
          (by
            intro a b hab
            rw [lookupStr_append_single acc a k _ (hnedup a b hab)]
            exact habs a b (List.mem_cons_of_mem _ hab))]
        simp

theorem parse_leaves (m : List (String × PyVal)) (hwf : wfDict m = true)
    (hok : flatOkDict m = true) :
    parseLoop [] ((leaves m).map (fun pv => (dotJoin pv.1, pv.2))) = Except.ok m := by
  have := parse_leaves_aux (sizeOf m) m le_rfl [] hwf hok (by intro a b _; rfl)
  simpa using this

theorem set_deep_concat (obj : PyVal) (initial : List String) (fk : String) (v : PyVal) :
    set_deep obj (initial ++ [fk]) v = traverseMod true (setFinal fk v) obj initial := by
  have hne : initial ++ [fk] ≠ [] := by simp
  cases hK : initial ++ [fk] with
  | nil => exact absurd hK hne
  | cons a as =>
    simp only [set_deep]
    rw [← hK, List.dropLast_concat]
    simp [List.getLastD_concat]

theorem del_deep_concat (obj : PyVal) (initial : List String) (fk : String) :
    del_deep obj (initial ++ [fk]) = traverseMod false (delFinal fk) obj initial := by
  have hne : initial ++ [fk] ≠ [] := by simp
  cases hK : initial ++ [fk] with
  | nil => exact absurd hK hne
  | cons a as =>
    simp only [del_deep]
    rw [← hK, List.dropLast_concat]
    simp [List.getLastD_concat]

theorem set_default_deep_concat (obj : PyVal) (initial : List String) (fk : String)
    (v : PyVal) (fp : Bool) :
    set_default_deep obj (initial ++ [fk]) v fp
      = traverseMod true (sdFinal fk v fp) obj initial := by
  have hne : initial ++ [fk] ≠ [] := by simp
  cases hK : initial ++ [fk] with
  | nil => exact absurd hK hne
  | cons a as =>
    simp only [set_default_deep]
    rw [← hK, List.dropLast_concat]
    simp [List.getLastD_concat]

/-- C2: the claim says `set_default_deep` never overwrites a value that is
already present; the code's list branch assigns unconditionally whenever the
index is in range.  At root `{"a": [10, 20]}` the call
`set_default_deep(root, "a", "0", value=99)` overwrites the present element
`10` with `99` and returns successfully, contradicting the claim. -/
theorem c2_list_overwrite :
    set_default_deep (PyVal.pydict [("a", PyVal.pylist [PyVal.int 10, PyVal.int 20])])
        ["a", "0"] (PyVal.int 99) false
      = (PyVal.pydict [("a", PyVal.pylist [PyVal.int 99, PyVal.int 20])],
         Except.ok PyVal.none) := rfl

/-- C3 (counterexample): a mapping key that is present but stores `None` is
reported as `KeyNotFound` by `get_deep`, because `_traverse` uses
`curr.get(key)` followed by an `is None` check. -/
theorem c3_counterexample :
    get_deep (PyVal.pydict [("a", PyVal.none)]) ["a"]
      = Except.error (PyErr.keyError "Key a not found in dictionary") ∧
    lookupStr [("a", PyVal.none)] "a" = Option.some PyVal.none :=
  ⟨rfl, rfl⟩

theorem isKeyNotFound_eq_segmentAbsent :
    ∀ (keys : List String) (obj : PyVal),
      isKeyNotFound (get_deep obj keys) = segmentAbsent obj keys := by
  intro keys
  induction keys with
  | nil => intro obj; rfl
  | cons key rest ih =>
    intro obj
    cases obj
    case pydict entries =>
      cases hl : lookupStr entries key with
      | none => simp [get_deep, traverseMod, segmentAbsent, hl, isKeyNotFound]
      | some w =>
        cases hw : w.isNone with
        | true => simp [get_deep, traverseMod, segmentAbsent, hl, hw, isKeyNotFound]
        | false =>
          simpa [get_deep, traverseMod, segmentAbsent, hl, hw] using ih w
    case pylist xs =>
      cases hi : pyInt key with
      | none => simp [get_deep, traverseMod, segmentAbsent, hi, isKeyNotFound]
      | some i =>
        cases hr : resolveIdx xs.length i with
        | none => simp [get_deep, traverseMod, segmentAbsent, hi, hr, isKeyNotFound]
        | some j =>
          simpa [get_deep, traverseMod, segmentAbsent, hi, hr] using ih (listGetD xs j)
    case pyset xs =>
      cases hi : pyInt key with
      | none => simp [get_deep, traverseMod, segmentAbsent, hi, isKeyNotFound]
      | some i =>
        cases hr : resolveIdx xs.length i with
        | none => simp [get_deep, traverseMod, segmentAbsent, hi, hr, isKeyNotFound]
        | some j =>
          simpa [get_deep, traverseMod, segmentAbsent, hi, hr] using ih (listGetD xs j)
    case pytuple xs =>
      cases hi : pyInt key with
      | none => simp [get_deep, traverseMod, segmentAbsent, hi, isKeyNotFound]
      | some i =>
        cases hr : resolveIdx xs.length i with
        | none => simp [get_deep, traverseMod, segmentAbsent, hi, hr, isKeyNotFound]
        | some j =>
          simpa [get_deep, traverseMod, segmentAbsent, hi, hr] using ih (listGetD xs j)
    case obj attrs =>
      cases hl : lookupStr attrs key with
      | none => simp [get_deep, traverseMod, segmentAbsent, hl, isKeyNotFound]
      | some w =>
        simpa [get_deep, traverseMod, segmentAbsent, hl] using ih w
    all_goals simp [get_deep, traverseMod, segmentAbsent, isKeyNotFound]

/-- C3 (amended): over every root and every path, `get_deep` fails with
KeyNotFound exactly when some walked segment is absent at the container
reached at that step — mapping key missing OR mapped to a stored `None`
(the code's `curr.get(key)` followed by an `is None` test conflates the
two), sequence/set/tuple index out of range, attribute missing, or a
non-container scalar reached mid-path; a segment that does not parse as an
integer at a sequence raises `ValueError` instead, outside KeyNotFound.
In particular a mapping key present with a non-`None` value is found and
the stored value returned. -/
theorem c3_get_amended :
    (∀ (obj : PyVal) (keys : List String),
        isKeyNotFound (get_deep obj keys) = segmentAbsent obj keys) ∧
    (∀ (entries : List (String × PyVal)) (k : String) (v : PyVal),
        lookupStr entries k = Option.some v → v ≠ PyVal.none →
        get_deep (PyVal.pydict entries) [k] = Except.ok v) := by
  constructor
  · intro obj keys
    exact isKeyNotFound_eq_segmentAbsent keys obj
  · intro entries k v hl hv
    show (traverseRO (PyVal.pydict entries) [k]).2 = _
    rw [ro_step_dict_found entries k v [] hl (isNone_false_of_ne v hv)]
    rfl

/-- C3 (witness): the iff evaluated at a stored-`None` mapping (absent:
both sides `true`), at a multi-segment path ending out of range in a
nested list (absent at the second step), and the present-non-`None`
success clause at a concrete mapping. -/
theorem c3_witness :
    (isKeyNotFound (get_deep (PyVal.pydict [("a", PyVal.none)]) ["a"])
        = segmentAbsent (PyVal.pydict [("a", PyVal.none)]) ["a"] ∧
      segmentAbsent (PyVal.pydict [("a", PyVal.none)]) ["a"] = true) ∧
    (isKeyNotFound (get_deep (PyVal.pydict [("a", PyVal.pylist [PyVal.int 7])]) ["a", "3"])
        = segmentAbsent (PyVal.pydict [("a", PyVal.pylist [PyVal.int 7])]) ["a", "3"] ∧
      segmentAbsent (PyVal.pydict [("a", PyVal.pylist [PyVal.int 7])]) ["a", "3"] = true) ∧
    get_deep (PyVal.pydict [("a", PyVal.int 1)]) ["a"] = Except.ok (PyVal.int 1) :=
  ⟨⟨c3_get_amended.1 (PyVal.pydict [("a", PyVal.none)]) ["a"], rfl⟩,
   ⟨c3_get_amended.1 (PyVal.pydict [("a", PyVal.pylist [PyVal.int 7])]) ["a", "3"], rfl⟩,
   c3_get_amended.2 [("a", PyVal.int 1)] "a" (PyVal.int 1) rfl
     (fun h => PyVal.noConfusion h)⟩

/-- C4 (counterexample): deleting index 0 of `{"a": [10, 20, 30]}` succeeds,
and `get_deep` on the very same path then succeeds returning `20` (the
shifted next element) rather than failing with KeyNotFound. -/
theorem c4_counterexample :
    del_deep (PyVal.pydict [("a", PyVal.pylist [PyVal.int 10, PyVal.int 20, PyVal.int 30])])
        ["a", "0"]
      = (PyVal.pydict [("a", PyVal.pylist [PyVal.int 20, PyVal.int 30])],
         Except.ok PyVal.none) ∧
    get_deep (PyVal.pydict [("a", PyVal.pylist [PyVal.int 20, PyVal.int 30])]) ["a", "0"]
      = Except.ok (PyVal.int 20) :=
  ⟨rfl, rfl⟩

/-- C4 (amended): when the container resolved by walking the leading
segments is a mapping or a plain object with duplicate-free keys, a
successful `del_deep` followed by `get_deep` on the same path fails with
KeyNotFound; for sequences the law fails because deletion shifts the later
elements down (see the counterexample). -/
theorem c4_del_get (initial : List String) (fk : String) (obj obj' r : PyVal)
    (d : List (String × PyVal))
    (hdel : del_deep obj (initial ++ [fk]) = (obj', Except.ok r))
    (hro : (traverseRO obj initial).2 = Except.ok (PyVal.pydict d) ∨
           (traverseRO obj initial).2 = Except.ok (PyVal.obj d))
    (hnd : nodupKeysB d = true) :
    isKeyNotFound (get_deep obj' (initial ++ [fk])) = true := by
  rw [del_deep_concat] at hdel
  exact (del_get_aux fk initial obj obj' r d hdel hro hnd).2

/-- C4 (witness): the amended statement evaluated at a concrete root with a
mapping as final container. -/
theorem c4_witness :
    del_deep (PyVal.pydict [("a", PyVal.pydict [("b", PyVal.int 1)])]) (["a"] ++ ["b"])
      = (PyVal.pydict [("a", PyVal.pydict [])], Except.ok PyVal.none) ∧
    isKeyNotFound
      (get_deep (PyVal.pydict [("a", PyVal.pydict [])]) (["a"] ++ ["b"])) = true :=
  ⟨rfl,
   c4_del_get ["a"] "b" (PyVal.pydict [("a", PyVal.pydict [("b", PyVal.int 1)])])
     (PyVal.pydict [("a", PyVal.pydict [])]) PyVal.none [("b", PyVal.int 1)]
     rfl (Or.inl rfl) rfl⟩

/-- C5 (counterexample): `set_deep(root, "a", value=None)` succeeds, but
`get_deep(root, "a")` then fails with KeyNotFound instead of returning the
stored `None`, because `_traverse` treats a `None` value as a missing key. -/
theorem c5_counterexample :
    set_deep (PyVal.pydict []) ["a"] PyVal.none
      = (PyVal.pydict [("a", PyVal.none)], Except.ok PyVal.none) ∧
    get_deep (PyVal.pydict [("a", PyVal.none)]) ["a"]
      = Except.error (PyErr.keyError "Key a not found in dictionary") :=
  ⟨rfl, rfl⟩

/-- C5 (amended): for every value other than `None`, after a successful
`set_deep` on a non-empty path, `get_deep` on the same path returns exactly
the stored value — for previously absent paths (created on the way) as well
as present ones. -/
theorem c5_set_get (initial : List String) (fk : String) (obj obj' r v : PyVal)
    (hv : v ≠ PyVal.none)
    (hset : set_deep obj (initial ++ [fk]) v = (obj', Except.ok r)) :
    get_deep obj' (initial ++ [fk]) = Except.ok v := by
  rw [set_deep_concat] at hset
  exact (set_get_aux fk v hv initial obj obj' r hset).2

/-- C5 (witness): the amended statement evaluated at a concrete
previously-absent path. -/
theorem c5_witness :
    PyVal.int 7 ≠ PyVal.none ∧
    set_deep (PyVal.pydict []) (["a"] ++ ["b"]) (PyVal.int 7)
      = (PyVal.pydict [("a", PyVal.pydict [("b", PyVal.int 7)])], Except.ok PyVal.none) ∧
    get_deep (PyVal.pydict [("a", PyVal.pydict [("b", PyVal.int 7)])]) (["a"] ++ ["b"])
      = Except.ok (PyVal.int 7) :=
  ⟨fun h => PyVal.noConfusion h, rfl,
   c5_set_get ["a"] "b" (PyVal.pydict [])
     (PyVal.pydict [("a", PyVal.pydict [("b", PyVal.int 7)])]) PyVal.none (PyVal.int 7)
     (fun h => PyVal.noConfusion h) rfl⟩

/-- C10: `get_deep` with zero path segments returns the root itself, and the
underlying walk leaves the root unchanged. -/
theorem c10_get_empty_path (obj : PyVal) :
    get_deep obj [] = Except.ok obj ∧
    (traverseMod false (fun v => (v, Except.ok v)) obj []).1 = obj :=
  ⟨rfl, rfl⟩

/-- C7: whenever the walk over the leading segments resolves to a set,
`set_default_deep` fails with the `UnsupportedOperation` error of the
taxonomy — the `IndexError` carrying the message
`"set does not support default value"` — and this error value is distinct
from every KeyNotFound error and from every out-of-range `IndexError` the
list branch can raise. -/
theorem c7_set_unsupported (initial : List String) (fk : String) (obj : PyVal)
    (s : List PyVal) (v : PyVal) (fp : Bool)
    (hro : (traverseRO obj initial).2 = Except.ok (PyVal.pyset s)) :
    (set_default_deep obj (initial ++ [fk]) v fp).2
      = Except.error (PyErr.indexError "set does not support default value") ∧
    (∀ msg, PyErr.indexError "set does not support default value" ≠ PyErr.keyError msg) ∧
    (∀ i : Int, PyErr.indexError "set does not support default value"
      ≠ PyErr.indexError ("Index " ++ toString i ++ " out of range for list")) := by
  refine ⟨?_, ?_, ?_⟩
  · rw [set_default_deep_concat]
    rw [traverseMod_result_of_ro initial obj (PyVal.pyset s) true (sdFinal fk v fp) hro]
    rfl
  · intro msg h
    exact PyErr.noConfusion h
  · intro i h
    injection h with hm
    have hd := congrArg String.data hm
    rw [String.data_append, String.data_append, List.append_assoc] at hd
    have hI : ("Index ".data ++ ((toString i).data ++ " out of range for list".data))
        = 'I' :: ("ndex ".data ++ ((toString i).data ++ " out of range for list".data)) := rfl
    rw [hI] at hd
    have hh : "set does not support default value".data.head? = Option.some 'I' := by
      rw [hd]
      rfl
    exact absurd hh (by decide)

/-- C7 (witness): the spec's own scenario `set_default_deep({"a": set()},
"a", "0", value=1)`. -/
theorem c7_witness :
    (traverseRO (PyVal.pydict [("a", PyVal.pyset [])]) ["a"]).2
      = Except.ok (PyVal.pyset []) ∧
    (set_default_deep (PyVal.pydict [("a", PyVal.pyset [])]) (["a"] ++ ["0"])
        (PyVal.int 1) false).2
      = Except.error (PyErr.indexError "set does not support default value") :=
  ⟨rfl,
   (c7_set_unsupported ["a"] "0" (PyVal.pydict [("a", PyVal.pyset [])]) [] (PyVal.int 1)
     false rfl).1⟩

/-- C8 (counterexample): the appended slots are NOT fresh independent
mappings.  `curr.extend([{}] * (key - len(curr) + 1))` appends `n` aliases
of one shared dict, so `set_deep([], "1", "x", value=5)` — which extends
the empty list to length 2 and writes into slot 1 — leaves BOTH slots
equal to `{"x": 5}`, not `[{}, {"x": 5}]` as fresh mappings would give. -/
theorem c8_counterexample :
    set_deep (PyVal.pylist []) ["1", "x"] (PyVal.int 5)
      = (PyVal.pylist [PyVal.pydict [("x", PyVal.int 5)],
          PyVal.pydict [("x", PyVal.int 5)]],
         Except.ok PyVal.none) ∧
    PyVal.pylist [PyVal.pydict [("x", PyVal.int 5)], PyVal.pydict [("x", PyVal.int 5)]]
      ≠ PyVal.pylist [PyVal.pydict [], PyVal.pydict [("x", PyVal.int 5)]] :=
  ⟨rfl, by simp⟩

/-- C8 (amended): at a list node, a segment parsing to an index at or
beyond the current length behaves as follows: with `create_missing` the
list is extended to length `index+1` with aliases of a single shared empty
mapping (`[{}] * n` replicates one dict object) and the walk descends into
that shared mapping, whose final state therefore appears at every new
position; without `create_missing` the walk fails with KeyNotFound
(`KeyError` over the converted index). -/
theorem c8_list_extend (xs : List PyVal) (key : String) (i : Int) (rest : List String)
    (f : PyVal → PyVal × Except PyErr PyVal)
    (hi : pyInt key = Option.some i) (hge : (xs.length : Int) ≤ i) :
    traverseMod true f (PyVal.pylist xs) (key :: rest)
      = (PyVal.pylist (xs ++ List.replicate (i.toNat + 1 - xs.length)
          (traverseMod true f (PyVal.pydict []) rest).1),
         (traverseMod true f (PyVal.pydict []) rest).2) ∧
    (xs ++ List.replicate (i.toNat + 1 - xs.length)
        (traverseMod true f (PyVal.pydict []) rest).1).length = i.toNat + 1 ∧
    traverseMod false f (PyVal.pylist xs) (key :: rest)
      = (PyVal.pylist xs,
         Except.error (PyErr.keyError ("Index " ++ toString i ++ " out of range for list"))) := by
  refine ⟨tm_step_list_extend f xs key i rest hi hge, ?_, ?_⟩
  · have h0 : 0 ≤ i := le_trans (Int.ofNat_nonneg xs.length) hge
    simp [List.length_append, List.length_replicate]
    omega
  · exact tm_step_list_oob false f xs key i rest hi (by simp)
      (resolveIdx_of_ge xs.length i hge)

/-- C8 (witness): walking `["2", "x"]` into an empty list with
`create_missing` pads the list to length 3 with one shared dict, descends
into it, and creates key `"x"` there; the shared dict's final state
`{"x": {}}` shows up in all three slots.  Without `create_missing` the
walk raises KeyNotFound. -/
theorem c8_witness :
    pyInt "2" = Option.some 2 ∧
    traverseMod true (fun v => (v, Except.ok v)) (PyVal.pylist []) ["2", "x"]
      = (PyVal.pylist [PyVal.pydict [("x", PyVal.pydict [])],
          PyVal.pydict [("x", PyVal.pydict [])],
          PyVal.pydict [("x", PyVal.pydict [])]],
         Except.ok (PyVal.pydict [])) ∧
    traverseMod false (fun v => (v, Except.ok v)) (PyVal.pylist []) ["2", "x"]
      = (PyVal.pylist [],
         Except.error (PyErr.keyError "Index 2 out of range for list")) :=
  ⟨rfl,
   (c8_list_extend [] "2" 2 ["x"] (fun v => (v, Except.ok v)) rfl (by decide)).1,
   (c8_list_extend [] "2" 2 ["x"] (fun v => (v, Except.ok v)) rfl (by decide)).2.2⟩

/-- C9 (counterexample): the claimed failing-call-with-leftover-containers
does not exist — whenever `set_default_deep` raises, the root is left
exactly as it was, because an error can only occur before any container
has been created. -/
theorem c9_counterexample :
    ¬ ∃ (obj : PyVal) (keys : List String) (v : PyVal) (fp : Bool) (e : PyErr),
        2 ≤ keys.length ∧ (set_default_deep obj keys v fp).2 = Except.error e ∧
        (set_default_deep obj keys v fp).1 ≠ obj := by
  rintro ⟨obj, keys, v, fp, e, hlen, herr, hne⟩
  apply hne
  cases keys with
  | nil => rfl
  | cons a as =>
    simp only [set_default_deep] at herr ⊢
    exact nomut_aux (sdFinal ((a :: as).getLastD "") v fp)
      (sdFinal_err_preserves ((a :: as).getLastD "") v fp)
      (sdFinal_dict_ok ((a :: as).getLastD "") v fp) (a :: as).dropLast obj e herr

/-- C9 (amended): a failed `set_default_deep` call never leaves partially
built structure behind: every freshly created intermediate container is an
empty dict in which all later walk steps and the final conditional write
succeed, so an error implies the root is returned unchanged. -/
theorem c9_no_leftover_mutation (obj : PyVal) (keys : List String) (v : PyVal) (fp : Bool)
    (e : PyErr) (herr : (set_default_deep obj keys v fp).2 = Except.error e) :
    (set_default_deep obj keys v fp).1 = obj := by
  cases keys with
  | nil => rfl
  | cons a as =>
    simp only [set_default_deep] at herr ⊢
    exact nomut_aux (sdFinal ((a :: as).getLastD "") v fp)
      (sdFinal_err_preserves ((a :: as).getLastD "") v fp)
      (sdFinal_dict_ok ((a :: as).getLastD "") v fp) (a :: as).dropLast obj e herr

/-- C9 (witness): a concrete failing multi-segment call that leaves the
root untouched. -/
theorem c9_witness :
    (set_default_deep (PyVal.pydict [("a", PyVal.pyset [])]) ["a", "0"]
        (PyVal.int 1) false).2
      = Except.error (PyErr.indexError "set does not support default value") ∧
    (set_default_deep (PyVal.pydict [("a", PyVal.pyset [])]) ["a", "0"]
        (PyVal.int 1) false).1
      = PyVal.pydict [("a", PyVal.pyset [])] :=
  ⟨rfl,
   c9_no_leftover_mutation (PyVal.pydict [("a", PyVal.pyset [])]) ["a", "0"] (PyVal.int 1)
     false (PyErr.indexError "set does not support default value") rfl⟩

/-- C1 (counterexample): the round-trip law fails as stated, on three
fronts: an empty nested dict vanishes under flattening; for a separator
other than `"."`, `parse_dotted_dict` still splits on `"."` so the
structure is not rebuilt; and a top-level empty key with a dict value is
flattened without any separator trace.  None of these inputs has a key
containing the separator used. -/
theorem c1_counterexample :
    parse_dotted_dict (flatten_nested_dict [("a", PyVal.pydict [])] "" ".")
      ≠ Except.ok [("a", PyVal.pydict [])] ∧
    parse_dotted_dict (flatten_nested_dict [("a", PyVal.pydict [("b", PyVal.int 1)])] "" "/")
      ≠ Except.ok [("a", PyVal.pydict [("b", PyVal.int 1)])] ∧
    parse_dotted_dict (flatten_nested_dict [("", PyVal.pydict [("b", PyVal.int 1)])] "" ".")
      ≠ Except.ok [("", PyVal.pydict [("b", PyVal.int 1)])] := by
  refine ⟨?_, ?_, ?_⟩
  · have h1 : flatten_nested_dict [("a", PyVal.pydict [])] "" "." = [] := by
      simp [flatten_nested_dict, flattenItems, pyDictOfList]
    rw [h1]
    intro h
    have h2 : parse_dotted_dict ([] : List (String × PyVal)) = Except.ok [] := rfl
    rw [h2] at h
    simp at h
  · have h1 : flatten_nested_dict [("a", PyVal.pydict [("b", PyVal.int 1)])] "" "/"
        = [("a/b", PyVal.int 1)] := by
      simp [flatten_nested_dict, flattenItems, pyDictOfList, dictSet]
    rw [h1]
    intro h
    have h2 : parse_dotted_dict [("a/b", PyVal.int 1)]
        = Except.ok [("a/b", PyVal.int 1)] := rfl
    rw [h2] at h
    simp at h
  · have h1 : flatten_nested_dict [("", PyVal.pydict [("b", PyVal.int 1)])] "" "."
        = [("b", PyVal.int 1)] := by
      simp [flatten_nested_dict, flattenItems, pyDictOfList, dictSet]
    rw [h1]
    intro h
    have h2 : parse_dotted_dict [("b", PyVal.int 1)]
        = Except.ok [("b", PyVal.int 1)] := rfl
    rw [h2] at h
    simp at h

/-- C1 (amended): for the separator `"."` (the only one `parse_dotted_dict`
splits on), the round-trip law holds for every well-formed nested dict
(duplicate-free keys, as Python guarantees) in which every key at every
level is nonempty and contains no `"."` and every nested dict value is
nonempty: `parse_dotted_dict (flatten_nested_dict m "" ".") = m`. -/
theorem c1_roundtrip (m : List (String × PyVal)) (hwf : wfDict m = true)
    (hok : flatOkDict m = true) :
    parse_dotted_dict (flatten_nested_dict m "" ".") = Except.ok m := by
  have hf := (flat_spec m "" hwf (flatOk_imp_keysOk m hok)).2
  have hmap : (leaves m).map (fun pv => (prefJoin "" pv.1, pv.2))
      = (leaves m).map (fun pv => (dotJoin pv.1, pv.2)) := by
    apply List.map_congr_left
    intro pv _
    simp [prefJoin]
  simp only [parse_dotted_dict]
  rw [hf, hmap]
  exact parse_leaves m hwf hok

/-- C1 (witness): the amended round-trip evaluated at the spec's own
example `{"a": {"b": 1, "c": {"d": 2}}}`. -/
theorem c1_witness :
    wfDict [("a", PyVal.pydict [("b", PyVal.int 1), ("c", PyVal.pydict [("d", PyVal.int 2)])])]
      = true ∧
    flatOkDict
        [("a", PyVal.pydict [("b", PyVal.int 1), ("c", PyVal.pydict [("d", PyVal.int 2)])])]
      = true ∧
    parse_dotted_dict (flatten_nested_dict
        [("a", PyVal.pydict [("b", PyVal.int 1), ("c", PyVal.pydict [("d", PyVal.int 2)])])]
        "" ".")
      = Except.ok
          [("a", PyVal.pydict [("b", PyVal.int 1), ("c", PyVal.pydict [("d", PyVal.int 2)])])] :=
  ⟨by simp [wfDict], by simp [flatOkDict, dotFree],
   c1_roundtrip _ (by simp [wfDict]) (by simp [flatOkDict, dotFree])⟩

/-- C6 (counterexample): with a key containing the separator, or with an
empty key, two different leaves collide on the same composite key and
`dict(items)` keeps only the last one, so the flat result has fewer entries
than the nested dict has leaves. -/
theorem c6_counterexample :
    (flatten_nested_dict [("a", PyVal.pydict [("b", PyVal.int 1)]), ("a.b", PyVal.int 2)]
        "" ".").length
      ≠ (leaves [("a", PyVal.pydict [("b", PyVal.int 1)]), ("a.b", PyVal.int 2)]).length ∧
    (flatten_nested_dict [("", PyVal.pydict [("b", PyVal.int 1)]), ("b", PyVal.int 2)]
        "" ".").length
      ≠ (leaves [("", PyVal.pydict [("b", PyVal.int 1)]), ("b", PyVal.int 2)]).length := by
  constructor
  · have h1 : flatten_nested_dict
        [("a", PyVal.pydict [("b", PyVal.int 1)]), ("a.b", PyVal.int 2)] "" "."
        = [("a.b", PyVal.int 2)] := by
      simp [flatten_nested_dict, flattenItems, pyDictOfList, dictSet]
    have h2 : leaves [("a", PyVal.pydict [("b", PyVal.int 1)]), ("a.b", PyVal.int 2)]
        = [(["a", "b"], PyVal.int 1), (["a.b"], PyVal.int 2)] := by
      simp [leaves]
    rw [h1, h2]
    simp
  · have h1 : flatten_nested_dict
        [("", PyVal.pydict [("b", PyVal.int 1)]), ("b", PyVal.int 2)] "" "."
        = [("b", PyVal.int 2)] := by
      simp [flatten_nested_dict, flattenItems, pyDictOfList, dictSet]
    have h2 : leaves [("", PyVal.pydict [("b", PyVal.int 1)]), ("b", PyVal.int 2)]
        = [(["", "b"], PyVal.int 1), (["b"], PyVal.int 2)] := by
      simp [leaves]
    rw [h1, h2]
    simp

/-- C6 (amended): for every well-formed nested dict (duplicate-free keys)
whose keys at every level are nonempty and free of the separator `"."`
(empty nested sub-dicts allowed — they have no leaves and add no entries),
`flatten_nested_dict m "" "."` is exactly one entry per leaf path of `m`
in order — its length equals the number of leaves and its composite keys
are pairwise distinct. -/
theorem c6_flatten_leaves (m : List (String × PyVal)) (hwf : wfDict m = true)
    (hok : flatKeysOkDict m = true) :
    flatten_nested_dict m "" "." = (leaves m).map (fun pv => (dotJoin pv.1, pv.2)) ∧
    (flatten_nested_dict m "" ".").length = (leaves m).length ∧
    ((flatten_nested_dict m "" ".").map Prod.fst).Nodup := by
  have hf := (flat_spec m "" hwf hok).2
  have hmap : (leaves m).map (fun pv => (prefJoin "" pv.1, pv.2))
      = (leaves m).map (fun pv => (dotJoin pv.1, pv.2)) := by
    apply List.map_congr_left
    intro pv _
    simp [prefJoin]
  refine ⟨by rw [hf, hmap], by rw [hf]; simp, ?_⟩
  rw [hf, hmap]
  have hcomp : ((leaves m).map (fun pv => (dotJoin pv.1, pv.2))).map Prod.fst
      = (leaves m).map (fun pv => dotJoin pv.1) := by
    rw [List.map_map]
    rfl
  rw [hcomp]
  have hn := flat_keys_nodup m "" hwf hok
  have hmap2 : (leaves m).map (fun pv => prefJoin "" pv.1)
      = (leaves m).map (fun pv => dotJoin pv.1) := by
    apply List.map_congr_left
    intro pv _
    simp [prefJoin]
  rw [hmap2] at hn
  exact hn

/-- C6 (witness): the amended statement evaluated at a nested dict with an
EMPTY sub-dict value — `{"a": {}, "b": 1}` has one leaf and flattens to one
entry, showing the empty-sub-mapping case is covered. -/
theorem c6_witness :
    wfDict [("a", PyVal.pydict []), ("b", PyVal.int 1)] = true ∧
    flatKeysOkDict [("a", PyVal.pydict []), ("b", PyVal.int 1)] = true ∧
    (flatten_nested_dict [("a", PyVal.pydict []), ("b", PyVal.int 1)] "" ".").length
      = (leaves [("a", PyVal.pydict []), ("b", PyVal.int 1)]).length ∧
    (leaves [("a", PyVal.pydict []), ("b", PyVal.int 1)]).length = 1 :=
  ⟨by simp [wfDict], by simp [flatKeysOkDict, dotFree],
   (c6_flatten_leaves _ (by simp [wfDict]) (by simp [flatKeysOkDict, dotFree])).2.1,
   by simp [leaves]⟩
